import Mathlib

/-!
Verification of the bondnet_sv data pipeline against its specification.

The embedding models, from the source:
* `src/bondnet/data/lmdb_dataset.py` — the sharded LMDB store: the shard
  writer `write_crns_to_lmdb`, the shard merger `merge_lmdbs`, and the
  reader `LmdbDataset` (length resolution, optional static sharding and
  `__getitem__` index remapping);
* `src/bondnet/data/dataset.py` — dataset construction: the `failed`
  bookkeeping of `ReactionNetworkDatasetGraphs._load`, the scaler-state
  handling of `ReactionNetworkDataset._load`, the label standardization of
  `MoleculeDataset._load`, the reaction-graph prebuilding of
  `ReactionNetworkDatasetPrecomputed.build_reaction_graphs`, and the
  molecule-grouped dataset split
  `train_validation_test_split_test_with_all_bonds_of_mol`.

An LMDB store is modelled as an association list from string keys to
values; `putS` overwrites an existing key in place or appends a new one
(LMDB `txn.put` semantics), `getS` is keyed lookup, and a cursor iterates
entries in ascending lexicographic byte order of the keys, modelled by an
insertion sort with the byte-wise comparison `strLe` (keys in this code
are ASCII, where byte order and character order agree).
-/

/-- A persisted store: a finite map from string keys to values,
represented as an association list (insertion order retained; `putS`
keeps keys unique). -/
abbrev Store (V : Type) := List (String × V)

/-- `txn.put(key, value)`: overwrite the entry holding `key`, or append a
fresh entry at the end. -/
def putS {V : Type} : Store V → String → V → Store V
  | [], k, v => [(k, v)]
  | (k', v') :: rest, k, v =>
    if k' = k then (k, v) :: rest else (k', v') :: putS rest k v

/-- `txn.get(key)`: keyed lookup. -/
def getS {V : Type} : Store V → String → Option V
  | [], _ => none
  | (k', v') :: rest, k => if k' = k then some v' else getS rest k

/-- The list of keys present in a store. -/
def keysS {V : Type} (s : Store V) : List String := s.map (·.1)

/-- Byte-wise (here: character-wise) lexicographic comparison of char
lists, the order in which an LMDB cursor yields keys. -/
def charListLe : List Char → List Char → Bool
  | [], _ => true
  | _ :: _, [] => false
  | a :: as, b :: bs =>
    if a.toNat < b.toNat then true
    else if b.toNat < a.toNat then false
    else charListLe as bs

/-- Lexicographic byte order on (ASCII) string keys. -/
def strLe (a b : String) : Bool := charListLe a.data b.data

/-- Insert into a sorted list (kernel-reducible sorting primitive). -/
def insertSorted {α : Type} (le : α → α → Bool) (x : α) : List α → List α
  | [] => [x]
  | y :: ys => if le x y then x :: y :: ys else y :: insertSorted le x ys

/-- Insertion sort (kernel-reducible; on stores all keys are distinct, so
any comparison sort yields the same entry sequence). -/
def sortByLe {α : Type} (le : α → α → Bool) (l : List α) : List α :=
  l.foldr (insertSorted le) []

/-- The entry sequence an LMDB cursor yields for a store: entries in
ascending lexicographic byte order of their keys. -/
def cursorList {V : Type} (s : Store V) : List (String × V) :=
  sortByLe (fun a b => strLe a.1 b.1) s

/-!
Key classification (`merge_lmdbs`): a key is renumbered as a positional
record exactly when `int(key.decode("ascii"))` succeeds. CPython's `int`
of a string accepts optional surrounding whitespace, an optional single
sign, and base-10 digits with single underscores allowed between digits.
-/

/-- The ASCII whitespace characters Python strips around an int literal:
space, tab, newline, carriage return, vertical tab, form feed. -/
def isPySpace (c : Char) : Bool :=
  c.toNat == 32 || c.toNat == 9 || c.toNat == 10 || c.toNat == 13 ||
    c.toNat == 11 || c.toNat == 12

/-- Strip leading and trailing Python whitespace. -/
def stripWs (cs : List Char) : List Char :=
  ((cs.dropWhile isPySpace).reverse.dropWhile isPySpace).reverse

/-- Digit tail of a Python int literal: digits with single underscores
allowed between digits (no leading, trailing, or doubled underscore). -/
def digitsU : List Char → Bool
  | [] => true
  | c :: rest =>
    if c = '_' then
      match rest with
      | [] => false
      | d :: rest2 => d.isDigit && digitsU rest2
    else c.isDigit && digitsU rest

/-- Unsigned body of a Python int literal: at least one digit first. -/
def pyBody : List Char → Bool
  | [] => false
  | c :: rest => c.isDigit && digitsU rest

/-- Signed body: one optional leading sign. -/
def pyIntCore : List Char → Bool
  | [] => false
  | c :: rest => if c = '+' || c = '-' then pyBody rest else pyBody (c :: rest)

/-- `True` iff CPython `int(s)` succeeds for the ASCII string `s`: the
classification rule `merge_lmdbs` applies to every key it copies. -/
def pyIntParses (s : String) : Bool := pyIntCore (stripWs s.data)

/-- The spec's classification predicate, for comparison: the key "parses
as a base-10 non-negative integer", i.e. it is a non-empty string of
decimal digits. -/
def isNonNegIntKey (s : String) : Bool :=
  !s.data.isEmpty && s.data.all (·.isDigit)

/-- Decimal digit character (only used with `d < 10`). -/
def digitChar (d : Nat) : Char :=
  match d with
  | 0 => '0' | 1 => '1' | 2 => '2' | 3 => '3' | 4 => '4'
  | 5 => '5' | 6 => '6' | 7 => '7' | 8 => '8' | 9 => '9'
  | _ => '*'

/-- Numeric value of a digit character. -/
def digitVal (c : Char) : Nat := c.toNat - 48

/-- Fuel-driven decimal rendering, most significant digit first; the fuel
`n + 1` in `natToStr` always suffices since `n / 10 < n` for `n ≥ 10`. -/
def toDecimalAux : Nat → Nat → List Char → List Char
  | 0, _, acc => acc
  | fuel + 1, n, acc =>
    if n < 10 then digitChar n :: acc
    else toDecimalAux fuel (n / 10) (digitChar (n % 10) :: acc)

/-- The store key Python renders for an integer index: `f"{idx}"`. -/
def natToStr (n : Nat) : String := ⟨toDecimalAux (n + 1) n []⟩

/-- Left fold reading a digit list as a base-10 numeral starting from
accumulated value `a`. -/
def parseFrom (a : Nat) (cs : List Char) : Nat :=
  cs.foldl (fun x c => x * 10 + digitVal c) a

/-!
Values stored in LMDB are pickled payloads. The merge copies value bytes
verbatim, so most theorems are generic in the value type; where the code
itself pickles an integer (the `"length"` key) versus an arbitrary object
(samples and metadata), values are tagged.
-/

/-- A pickled value: either an arbitrary serialized object (a sample or a
metadata structure) or a pickled integer (the value under `"length"`). -/
inductive PVal (α : Type) where
  | obj : α → PVal α
  | num : Nat → PVal α
deriving DecidableEq

/-- `write_crns_to_lmdb` (src/bondnet/data/lmdb_dataset.py, 193-234):
write the indexed samples under keys `f"{0}" .. f"{n-1}"` in order, then
`"length" := len(samples)`, then each metadata key/value pair in mapping
order. -/
def write_crns_to_lmdb {α : Type} (samples : List α)
    (meta : List (String × α)) : Store (PVal α) :=
  let s1 := samples.enum.foldl
    (fun st e => putS st (natToStr e.1) (PVal.obj e.2)) []
  let s2 := putS s1 "length" (PVal.num samples.length)
  meta.foldl (fun st e => putS st e.1 (PVal.obj e.2)) s2

/-- One cursor entry processed by the merge loop of `merge_lmdbs`
(src/bondnet/data/lmdb_dataset.py, 262-279): a key accepted by `int()` is
renumbered to the running index, any other key is copied unchanged. -/
def mergeEntry {V : Type} (acc : Store V × Nat) (e : String × V) :
    Store V × Nat :=
  if pyIntParses e.1 then (putS acc.1 (natToStr acc.2) e.2, acc.2 + 1)
  else (putS acc.1 e.1 e.2, acc.2)

/-- Fold the merge loop over one shard's cursor entries. -/
def mergeEntries {V : Type} (acc : Store V × Nat) (es : List (String × V)) :
    Store V × Nat :=
  es.foldl mergeEntry acc

/-- The shard loop of `merge_lmdbs`: each shard is read through a cursor
(entries in ascending key order) and folded into the output store, the
running index persisting across shards. -/
def mergePass {V : Type} (dbs : List (Store V)) : Store V × Nat :=
  dbs.foldl (fun acc db => mergeEntries acc (cursorList db)) ([], 0)

/-- `merge_lmdbs` (src/bondnet/data/lmdb_dataset.py, 237-288): merge all
shards, then overwrite `"length"` with the final running index. -/
def merge_lmdbs {α : Type} (dbs : List (Store (PVal α))) : Store (PVal α) :=
  let r := mergePass dbs
  putS r.1 "length" (PVal.num r.2)

/-- Length resolution of `LmdbDataset.__init__`
(src/bondnet/data/lmdb_dataset.py, 36-47): if a `"length"` entry exists,
unpickle it (`none` models the type confusion when the stored pickle is
not an integer); otherwise fall back to the store's native entry count. -/
def lmdbNumEntries {α : Type} (s : Store (PVal α)) : Option Nat :=
  match getS s "length" with
  | some (PVal.num n) => some n
  | some (PVal.obj _) => none
  | none => some s.length

/-- The number of positional (int-parsing) entries in an entry list. -/
def posCount {V : Type} (es : List (String × V)) : Nat :=
  es.countP (fun e => pyIntParses e.1)

/-- The value an entry list leaves under a fixed metadata key when its
entries are replayed in order ("last write wins"). -/
def lastWrite {V : Type} (k : String) (init : Option V)
    (es : List (String × V)) : Option V :=
  es.foldl (fun a e => if e.1 = k then some e.2 else a) init

/-- The shard loop of `merge_lmdbs`, started from an arbitrary
accumulated output and running index (generalization of `mergePass` for
induction over shards). -/
def mergeFrom {V : Type} (acc : Store V × Nat) (dbs : List (Store V)) :
    Store V × Nat :=
  dbs.foldl (fun a db => mergeEntries a (cursorList db)) acc

/-- Positional records contributed by the shards before shard `s`. -/
def posOffset {V : Type} (dbs : List (Store V)) (s : Nat) : Nat :=
  ((dbs.take s).map (fun db => posCount db)).sum

/-- The total number of positional records the merge renumbers. -/
def mergeTotal {V : Type} (dbs : List (Store V)) : Nat :=
  (dbs.map (fun db => posCount db)).sum

/-- Explicit entry-list form of a well-formed writer shard: positional
entries in index order, then the shard's own length, then metadata. -/
def writerShape {α : Type} (samples : List α) (meta : List (String × α)) :
    Store (PVal α) :=
  samples.enum.map (fun e => (natToStr e.1, PVal.obj e.2))
    ++ [("length", PVal.num samples.length)]
    ++ meta.map (fun e => (e.1, PVal.obj e.2))

/-- Well-formedness of a writer's metadata mapping: no key is accepted by
`int()` and no key is the reserved `"length"` key, and keys are unique
(Python dict keys). -/
def metaOk {α : Type} (meta : List (String × α)) : Bool :=
  (meta.map (·.1)).all (fun k => !pyIntParses k && !(k == "length"))
    && decide ((meta.map (·.1)).Nodup)

/-!
Reader-side static sharding (`LmdbDataset.__init__`, 49-60, and
`__getitem__`, 68-84): `np.array_split(range(L), total_shards)` cuts
`[0, L)` into `total_shards` contiguous chunks, the first `L % n` of size
`L / n + 1` and the rest of size `L / n`; a sharded reader sees only its
chunk and `__getitem__` remaps a visible index to
`available_indices[idx]` before building the key `f"{idx}"`.
-/

/-- Size of chunk `i` of `np.array_split(range(L), n)`. -/
def shardSize (L n i : Nat) : Nat := L / n + if i < L % n then 1 else 0

/-- First global index of chunk `i` of `np.array_split(range(L), n)`. -/
def shardStart (L n i : Nat) : Nat := i * (L / n) + min i (L % n)

/-- The visible index range of shard `i`: `self.available_indices`. -/
def availableIndices (L n i : Nat) : List Nat :=
  List.range' (shardStart L n i) (shardSize L n i)

/-- All chunks of `np.array_split(range(L), n)`: `self.shards`. -/
def arraySplit (L n : Nat) : List (List Nat) :=
  (List.range n).map (availableIndices L n)

/-- Sharded `LmdbDataset.__getitem__`: remap the visible index `j` to the
global index `available_indices[j]` and fetch the record under the key
`f"{g}"` (since `_keys` is `list(range(num_entries))`). -/
def lmdbGetItem {α : Type} (store : Store (PVal α)) (L n i j : Nat) :
    Option (PVal α) :=
  getS store (natToStr ((availableIndices L n i).getD j 0))

/-!
Label standardization (`MoleculeDataset._load`, dataset.py 354-404).
Values are modelled over `ℚ` (the exact idealization of the float
arithmetic; "within floating-point tolerance" becomes exact equality).
-/

/-- Modelled from the spec: `StandardScaler`
(bondnet.data.transformers, not under src/) standardizes an intensive
label column as `y' = (y - mean(y)) / std(y)` with dataset-wide scalars
(spec section 4.3); the per-sample recorded state is the repeated mean
and std (dataset.py 380-381). -/
def scaleIntensive (xs : List ℚ) (mean std : ℚ) : List ℚ :=
  xs.map (fun x => (x - mean) / std)

/-- Extensive path (dataset.py 366-371): `y' = y / natoms` per sample. -/
def scaleExtensive (xs natoms : List ℚ) : List ℚ :=
  List.zipWith (fun x a => x / a) xs natoms

/-- Recorded extensive scaler state (dataset.py 370-371): per-sample mean
0 and std equal to the atom-count divisor itself. -/
def zerosLike (xs : List ℚ) : List ℚ := xs.map (fun _ => 0)

/-- Per-sample repeated scalar state (dataset.py 380-381). -/
def repeatLike (c : ℚ) (xs : List ℚ) : List ℚ := xs.map (fun _ => c)

/-- Modelled from the spec: de-scaling applies `y = y' * std + mean`
elementwise with the recorded per-sample state (BaseDataset docstring,
dataset.py 50-58, and spec section 4.3). -/
def descale : List ℚ → List ℚ → List ℚ → List ℚ
  | y :: ys, s :: ss, m :: ms => (y * s + m) :: descale ys ss ms
  | _, _, _ => []

/-!
Scaler-state handling (`ReactionNetworkDataset._load`, dataset.py
899-927 and 971-999): with a supplied state dict the four scaler fields
are asserted present and used verbatim; without one, statistics are
computed from the data. Tensor values are opaque (`β`); the statistics
computation (`torch.mean`/`torch.std`, `HeteroGraphFeatureStandardScaler`
fitting) is an opaque function parameter, so "never recomputes" is
expressed by the result being independent of it.
-/

/-- The scaler fields of a loaded state dict (`load_state_dict`,
dataset.py 172-179); `none` models a missing/null field. -/
structure ScalerState (β : Type) where
  featureScalerMean : Option β
  featureScalerStd : Option β
  labelScalerMean : Option β
  labelScalerStd : Option β

/-- Feature-scaler selection (dataset.py 899-927): no state dict means
fit a fresh scaler (computed statistics); a state dict means assert both
fields present (construction stops otherwise) and use them verbatim. -/
def featureScalerSelect {β : Type} (stateDict : Option (ScalerState β))
    (computed : β × β) : Except String (β × β) :=
  match stateDict with
  | none => Except.ok computed
  | some st =>
    match st.featureScalerMean with
    | none =>
      Except.error "Corrupted state_dict file, feature_scaler_mean not found"
    | some m =>
      match st.featureScalerStd with
      | none =>
        Except.error "Corrupted state_dict file, feature_scaler_std not found"
      | some sd => Except.ok (m, sd)

/-- Label-scaler selection (dataset.py 971-999): no state dict means
`mean = torch.mean(values)`, `std = torch.std(values)`; a state dict
means assert both fields present and use them verbatim. -/
def labelScalerSelect {β : Type} (stateDict : Option (ScalerState β))
    (computeMean computeStd : List β → β) (values : List β) :
    Except String (β × β) :=
  match stateDict with
  | none => Except.ok (computeMean values, computeStd values)
  | some st =>
    match st.labelScalerMean with
    | none =>
      Except.error "Corrupted state_dict file, label_scaler_mean not found"
    | some m =>
      match st.labelScalerStd with
      | none =>
        Except.error "Corrupted state_dict file, label_scaler_std not found"
      | some sd => Except.ok (m, sd)

/-!
Reaction creation and `failed` bookkeeping
(`ReactionNetworkDatasetGraphs._load`, dataset.py 598-671): for each raw
label, if any referenced molecule index is not among the indices of
non-None graphs the record is skipped and `True` appended to `_failed`;
otherwise a `ReactionInNetwork` and one label are appended and `False`
recorded.
-/

/-- One raw reaction label row: the molecule indices it references and
its provenance id (the other label payload fields do not affect the
accept/reject bookkeeping). -/
structure RawRxn where
  reactants : List Nat
  products : List Nat
  rid : String
deriving DecidableEq

/-- `graphs_not_none_indices = [i for i, g in enumerate(graphs) if g is
not None]` (dataset.py 550). -/
def graphsNotNoneIndices {G : Type} (graphs : List (Option G)) : List Nat :=
  (List.range graphs.length).filter (fun i => (graphs.getD i none).isSome)

/-- The loop's rejection test (dataset.py 602-608): some referenced
molecule id (reactants then products) is not a valid non-None graph
index. -/
def rxnFailedFlag {G : Type} (graphs : List (Option G)) (lb : RawRxn) :
    Bool :=
  (lb.reactants ++ lb.products).any
    (fun d => !((graphsNotNoneIndices graphs).contains d))

/-- Accumulated `_failed`, `reactions`, `labels` of the loop. -/
structure LoadAcc where
  failed : List Bool
  reactions : List RawRxn
  labelIds : List String
deriving DecidableEq

/-- One iteration of the reaction-creation loop (dataset.py 602-669). -/
def loadStep {G : Type} (graphs : List (Option G)) (acc : LoadAcc)
    (lb : RawRxn) : LoadAcc :=
  if rxnFailedFlag graphs lb then
    { acc with failed := acc.failed ++ [true] }
  else
    { failed := acc.failed ++ [false],
      reactions := acc.reactions ++ [lb],
      labelIds := acc.labelIds ++ [lb.rid] }

/-- The whole reaction-creation loop. -/
def loadReactions {G : Type} (graphs : List (Option G))
    (raw : List RawRxn) : LoadAcc :=
  raw.foldl (loadStep graphs) ⟨[], [], []⟩

/-!
Reaction-graph prebuilding
(`ReactionNetworkDatasetPrecomputed.build_reaction_graphs`, dataset.py
1378-1442). `create_rxn_graph` (bondnet.data.utils, outside src/) is an
opaque parameter producing a merged graph (observable: its node count)
and a per-node-type feature table (observable: row counts); the two
`print` diagnostics of the loop are modelled as emitted warning events.
-/

/-- A `ReactionInNetwork` as consumed by `build_reaction_graphs`:
participant indices, both mapping tables, the declared unified totals,
the derived totals, and the provenance id. -/
structure RxnInNetwork where
  reactants : List Nat
  products : List Nat
  atomMapping : List (List (List Nat))
  bondMapping : List (List (List Nat))
  totalBonds : Nat
  totalAtoms : Nat
  numBondsTotal : Nat
  numAtomsTotal : Nat
  rid : String
deriving DecidableEq

/-- The merged reaction graph, as far as the audit observes it. -/
structure RGraph where
  numNodes : Nat
deriving DecidableEq

/-- What each diagnostic `print` of the function records. Note that
neither carries the reaction's id: the mismatch print is the fixed
string "unequal mapping & graph len", and the audit print shows the
graph, the feature-length table, the mappings and the declared totals
(dataset.py 1433-1440). -/
inductive RxnWarn where
  | unequalMappingGraphLen
  | featAudit (atomMapping bondMapping : List (List (List Nat)))
      (totalBonds totalAtoms : Nat)
deriving DecidableEq

/-- The mismatch test of dataset.py 1402-1405: the number of bond-mapping
entries on a side differs from the number of participant graphs on that
side. -/
def mappingMismatch (rxn : RxnInNetwork) : Bool :=
  ((rxn.bondMapping.getD 0 []).length != rxn.reactants.length)
    || ((rxn.bondMapping.getD 1 []).length != rxn.products.length)

/-- One iteration of the first loop (dataset.py 1383-1417): resolve
participants, derive `has_bonds`, print the mismatch warning if the
lengths disagree, and call `create_rxn_graph` regardless, appending its
result. -/
def processRxn {G : Type}
    (crg : List (Option G) → List (Option G) → RxnInNetwork → List Bool →
      List Bool → RGraph × List (String × Nat))
    (graphs : List (Option G)) (rxn : RxnInNetwork) :
    RGraph × List (String × Nat) × List RxnWarn :=
  let reactants := rxn.reactants.map (fun i => graphs.getD i none)
  let products := rxn.products.map (fun i => graphs.getD i none)
  let hasBondsR := (rxn.bondMapping.getD 0 []).map
    (fun mp => decide (0 < mp.length))
  let hasBondsP := (rxn.bondMapping.getD 1 []).map
    (fun mp => decide (0 < mp.length))
  let warns := if (hasBondsR.length != reactants.length)
      || (hasBondsP.length != products.length)
    then [RxnWarn.unequalMappingGraphLen] else []
  let gf := crg reactants products rxn hasBondsR hasBondsP
  (gf.1, gf.2, warns)

/-- The audit of the second loop (dataset.py 1419-1441): the summed
feature-row counts must equal the graph's node count; a mismatch only
prints (the graph, feature lengths, mappings and totals — not the id)
and the reaction stays in the output. -/
def auditRxn (g : RGraph) (fts : List (String × Nat))
    (rxn : RxnInNetwork) : List RxnWarn :=
  if (fts.map (·.2)).sum != g.numNodes
  then [RxnWarn.featAudit rxn.atomMapping rxn.bondMapping rxn.totalBonds
        rxn.totalAtoms]
  else []

/-- `build_reaction_graphs`: one graph and one feature table per input
reaction, in order, plus every warning either loop printed. -/
def build_reaction_graphs {G : Type}
    (crg : List (Option G) → List (Option G) → RxnInNetwork → List Bool →
      List Bool → RGraph × List (String × Nat))
    (graphs : List (Option G)) (reactions : List RxnInNetwork) :
    List RGraph × List (List (String × Nat)) × List RxnWarn :=
  let triples := reactions.map (processRxn crg graphs)
  (triples.map (·.1),
   triples.map (·.2.1),
   (triples.map (·.2.2)).flatten
     ++ ((triples.zip reactions).map
          (fun pr => auditRxn pr.1.1 pr.1.2.1 pr.2)).flatten)

/-- A trivial `create_rxn_graph` stand-in for concrete evaluation. -/
def crgConst : List (Option Unit) → List (Option Unit) → RxnInNetwork →
    List Bool → List Bool → RGraph × List (String × Nat) :=
  fun _ _ _ _ _ => (⟨0⟩, [])

/-- A record whose reactant side has one bond-mapping entry but zero
participant graphs: a structural mapping error. -/
def rxnMismatch : RxnInNetwork :=
  ⟨[], [], [], [[[0]], []], 0, 0, 0, 0, "rxn-42"⟩

/-!
Molecule-grouped split
(`train_validation_test_split_test_with_all_bonds_of_mol`, dataset.py
1504-1562): samples are grouped by `label["id"]` with a `defaultdict`
(insertion order), whole groups are drained into the test set until it
holds `num_test` samples and into a train/validation pool otherwise, and
the pool is then permuted at the individual-sample level and cut at
`num_train`. The two `np.random.permutation` draws are inputs here
(`perm` over group indices, `permTV` over the pool).
-/

/-- `groups[label].append(i)` of the `defaultdict` loop. -/
def addToGroups (gs : List (String × List Nat)) (l : String) (i : Nat) :
    List (String × List Nat) :=
  match gs with
  | [] => [(l, [i])]
  | (k, v) :: rest =>
    if k = l then (k, v ++ [i]) :: rest else (k, v) :: addToGroups rest l i

/-- The grouping loop (dataset.py 1536-1538). -/
def groupsAssoc (labels : List String) : List (String × List Nat) :=
  labels.enum.foldl (fun gs e => addToGroups gs e.2 e.1) []

/-- `groups = [val for key, val in groups.items()]` (dataset.py 1539). -/
def groupsOf (labels : List String) : List (List Nat) :=
  (groupsAssoc labels).map (·.2)

/-- The group-draining loop (dataset.py 1545-1551): whole groups go to
the test indices while they hold fewer than `num_test` samples, and to
the train/validation pool afterwards. -/
def assignGroups (gs : List (List Nat)) (numTest : Nat) (perm : List Nat) :
    List Nat × List Nat :=
  perm.foldl (fun acc i =>
    if acc.1.length < numTest then (acc.1 ++ gs.getD i [], acc.2)
    else (acc.1, acc.2 ++ gs.getD i [])) ([], [])

/-- The whole split (dataset.py 1529-1562): returns
`(train_idx, val_idx, test_idx)`; `permTV` is the sample-level
permutation of the train/validation pool. -/
def groupedSplit (labels : List String) (numTest numTrain : Nat)
    (perm permTV : List Nat) : List Nat × List Nat × List Nat :=
  (permTV.take numTrain, permTV.drop numTrain,
   (assignGroups (groupsOf labels) numTest perm).1)

theorem insertSorted_perm {α : Type} (le : α → α → Bool) (x : α) (l : List α) :
    List.Perm (insertSorted le x l) (x :: l) := by
  induction l with
  | nil => simp [insertSorted]
  | cons y ys ih =>
    by_cases h : le x y = true
    · simp [insertSorted, h]
    · rw [show insertSorted le x (y :: ys)
            = y :: insertSorted le x ys from by simp [insertSorted, h]]
      exact ((ih.cons y).trans (List.Perm.swap x y ys))

theorem sortByLe_perm {α : Type} (le : α → α → Bool) (l : List α) :
    List.Perm (sortByLe le l) l := by
  induction l with
  | nil => simp [sortByLe]
  | cons y ys ih =>
    have : sortByLe le (y :: ys) = insertSorted le y (sortByLe le ys) := rfl
    rw [this]
    exact (insertSorted_perm le y (sortByLe le ys)).trans (ih.cons y)

theorem cursorList_perm {V : Type} (s : Store V) :
    List.Perm (cursorList s) s := sortByLe_perm _ s

theorem getS_putS_same {V : Type} (s : Store V) (k : String) (v : V) :
    getS (putS s k v) k = some v := by
  induction s with
  | nil => simp [putS, getS]
  | cons e rest ih =>
    obtain ⟨k', v'⟩ := e
    by_cases h : k' = k
    · simp [putS, h, getS]
    · simp [putS, h, getS, ih]

theorem getS_putS_other {V : Type} (s : Store V) (k k' : String) (v : V)
    (h : k' ≠ k) : getS (putS s k v) k' = getS s k' := by
  have hne : k ≠ k' := fun hh => h hh.symm
  induction s with
  | nil => simp [putS, getS, hne]
  | cons e rest ih =>
    obtain ⟨k0, v0⟩ := e
    by_cases h0 : k0 = k
    · subst h0
      rw [show putS ((k0, v0) :: rest) k0 v = (k0, v) :: rest from by
            simp [putS]]
      simp [getS, fun hh : k0 = k' => hne hh]
    · rw [show putS ((k0, v0) :: rest) k v = (k0, v0) :: putS rest k v from by
            simp [putS, h0]]
      by_cases h1 : k0 = k'
      · simp [getS, h1]
      · simp [getS, h1, ih]

theorem keysS_putS {V : Type} (s : Store V) (k : String) (v : V) (k' : String) :
    k' ∈ keysS (putS s k v) ↔ k' ∈ keysS s ∨ k' = k := by
  induction s with
  | nil => simp [putS, keysS]
  | cons e rest ih =>
    obtain ⟨k0, v0⟩ := e
    by_cases h0 : k0 = k
    · subst h0
      rw [show putS ((k0, v0) :: rest) k0 v = (k0, v) :: rest from by
            simp [putS]]
      simp only [keysS, List.map_cons, List.mem_cons]
      tauto
    · rw [show putS ((k0, v0) :: rest) k v = (k0, v0) :: putS rest k v from by
            simp [putS, h0]]
      simp only [keysS, List.map_cons, List.mem_cons]
      rw [show (List.map (fun x => x.1) (putS rest k v) : List String)
            = keysS (putS rest k v) from rfl]
      rw [show (List.map (fun x => x.1) rest : List String)
            = keysS rest from rfl]
      rw [ih]
      tauto

theorem putS_nodupKeys {V : Type} (s : Store V) (k : String) (v : V)
    (h : (keysS s).Nodup) : (keysS (putS s k v)).Nodup := by
  induction s with
  | nil => simp [putS, keysS]
  | cons e rest ih =>
    obtain ⟨k0, v0⟩ := e
    simp only [keysS, List.map_cons, List.nodup_cons] at h
    by_cases h0 : k0 = k
    · subst h0
      rw [show putS ((k0, v0) :: rest) k0 v = (k0, v) :: rest from by
            simp [putS]]
      simp only [keysS, List.map_cons, List.nodup_cons]
      exact h
    · rw [show putS ((k0, v0) :: rest) k v = (k0, v0) :: putS rest k v from by
            simp [putS, h0]]
      simp only [keysS, List.map_cons, List.nodup_cons]
      constructor
      · intro hmem
        rw [show (List.map (fun x => x.1) (putS rest k v) : List String)
              = keysS (putS rest k v) from rfl, keysS_putS] at hmem
        rcases hmem with hmem | hmem
        · exact h.1 hmem
        · exact h0 hmem
      · exact ih h.2

theorem digitVal_digitChar (d : Nat) (h : d < 10) :
    digitVal (digitChar d) = d := by
  interval_cases d <;> rfl

theorem digitChar_isDigit (d : Nat) (h : d < 10) :
    (digitChar d).isDigit = true := by
  interval_cases d <;> rfl

theorem parseFrom_toDecimalAux (fuel : Nat) :
    ∀ n acc, n < fuel →
      parseFrom 0 (toDecimalAux fuel n acc) = parseFrom n acc := by
  induction fuel with
  | zero => intro n acc h; omega
  | succ f ih =>
    intro n acc h
    by_cases h10 : n < 10
    · rw [show toDecimalAux (f + 1) n acc = digitChar n :: acc from by
            simp [toDecimalAux, h10]]
      show parseFrom (0 * 10 + digitVal (digitChar n)) acc = parseFrom n acc
      rw [digitVal_digitChar n h10]
      norm_num
    · rw [show toDecimalAux (f + 1) n acc
            = toDecimalAux f (n / 10) (digitChar (n % 10) :: acc) from by
            simp [toDecimalAux, h10]]
      have hlt : n / 10 < f := by omega
      rw [ih (n / 10) (digitChar (n % 10) :: acc) hlt]
      show parseFrom (n / 10 * 10 + digitVal (digitChar (n % 10))) acc
            = parseFrom n acc
      rw [digitVal_digitChar (n % 10) (Nat.mod_lt n (by norm_num))]
      congr 1
      omega

theorem parseFrom_natToStr (n : Nat) : parseFrom 0 (natToStr n).data = n := by
  show parseFrom 0 (toDecimalAux (n + 1) n []) = n
  rw [parseFrom_toDecimalAux (n + 1) n [] (Nat.lt_succ_self n)]
  rfl

theorem natToStr_injective : Function.Injective natToStr := by
  intro a b h
  have ha := parseFrom_natToStr a
  have hb := parseFrom_natToStr b
  rw [h] at ha
  omega

theorem toDecimalAux_all_digits (fuel : Nat) :
    ∀ n acc, n < fuel → (∀ c ∈ acc, c.isDigit = true) →
      ∀ c ∈ toDecimalAux fuel n acc, c.isDigit = true := by
  induction fuel with
  | zero => intro n acc h; omega
  | succ f ih =>
    intro n acc h hacc c hc
    by_cases h10 : n < 10
    · rw [show toDecimalAux (f + 1) n acc = digitChar n :: acc from by
            simp [toDecimalAux, h10]] at hc
      rcases List.mem_cons.mp hc with hc | hc
      · exact hc ▸ digitChar_isDigit n h10
      · exact hacc c hc
    · rw [show toDecimalAux (f + 1) n acc
            = toDecimalAux f (n / 10) (digitChar (n % 10) :: acc) from by
            simp [toDecimalAux, h10]] at hc
      refine ih (n / 10) _ (by omega) ?_ c hc
      intro c2 hc2
      rcases List.mem_cons.mp hc2 with hc2 | hc2
      · exact hc2 ▸ digitChar_isDigit (n % 10) (Nat.mod_lt n (by norm_num))
      · exact hacc c2 hc2

theorem toDecimalAux_length (fuel : Nat) :
    ∀ n acc, n < fuel →
      acc.length < (toDecimalAux fuel n acc).length := by
  induction fuel with
  | zero => intro n acc h; omega
  | succ f ih =>
    intro n acc h
    by_cases h10 : n < 10
    · rw [show toDecimalAux (f + 1) n acc = digitChar n :: acc from by
            simp [toDecimalAux, h10]]
      simp
    · rw [show toDecimalAux (f + 1) n acc
            = toDecimalAux f (n / 10) (digitChar (n % 10) :: acc) from by
            simp [toDecimalAux, h10]]
      have := ih (n / 10) (digitChar (n % 10) :: acc) (by omega)
      simp at this
      omega

theorem natToStr_ne_nil (n : Nat) : (natToStr n).data ≠ [] := by
  have := toDecimalAux_length (n + 1) n [] (Nat.lt_succ_self n)
  intro h
  rw [show (natToStr n).data = toDecimalAux (n + 1) n [] from rfl] at h
  rw [h] at this
  simp at this

theorem natToStr_all_digits (n : Nat) :
    ∀ c ∈ (natToStr n).data, c.isDigit = true :=
  toDecimalAux_all_digits (n + 1) n [] (Nat.lt_succ_self n) (by intro c hc; cases hc)

theorem isDigit_toNat_bounds (c : Char) (h : c.isDigit = true) :
    48 ≤ c.toNat ∧ c.toNat ≤ 57 := by
  simp [Char.isDigit] at h
  exact h

theorem isPySpace_of_isDigit (c : Char) (h : c.isDigit = true) :
    isPySpace c = false := by
  have hb := isDigit_toNat_bounds c h
  rw [show isPySpace c
        = (c.toNat == 32 || c.toNat == 9 || c.toNat == 10 || c.toNat == 13 ||
            c.toNat == 11 || c.toNat == 12) from rfl]
  simp only [Bool.or_eq_false_iff, beq_eq_false_iff_ne, ne_eq]
  omega

theorem digitsU_cons_of_ne (c : Char) (rest : List Char) (h : c ≠ '_') :
    digitsU (c :: rest) = (c.isDigit && digitsU rest) := by
  cases rest with
  | nil => simp [digitsU, h]
  | cons d r2 => simp [digitsU, h]

theorem digitsU_of_all_digits (cs : List Char)
    (h : ∀ c ∈ cs, c.isDigit = true) : digitsU cs = true := by
  induction cs with
  | nil => rfl
  | cons c rest ih =>
    have hc : c.isDigit = true := h c (List.mem_cons_self c rest)
    have hne : c ≠ '_' := by
      intro he
      subst he
      simp [Char.isDigit] at hc
    rw [digitsU_cons_of_ne c rest hne]
    rw [hc, ih (fun c2 hc2 => h c2 (List.mem_cons_of_mem c hc2))]
    rfl

theorem stripWs_of_all_digits (cs : List Char)
    (h : ∀ c ∈ cs, c.isDigit = true) : stripWs cs = cs := by
  have hnd : ∀ c ∈ cs, isPySpace c = false := fun c hc =>
    isPySpace_of_isDigit c (h c hc)
  have h1 : cs.dropWhile isPySpace = cs := by
    cases cs with
    | nil => rfl
    | cons c rest =>
      rw [List.dropWhile_cons_of_neg]
      simp [hnd c (List.mem_cons_self c rest)]
  have h2 : cs.reverse.dropWhile isPySpace = cs.reverse := by
    cases hr : cs.reverse with
    | nil => rfl
    | cons c rest =>
      rw [List.dropWhile_cons_of_neg]
      have : c ∈ cs := by
        rw [← List.mem_reverse, hr]
        exact List.mem_cons_self c rest
      simp [hnd c this]
  rw [stripWs, h1, h2, List.reverse_reverse]

theorem pyIntParses_of_all_digits (s : String) (hne : s.data ≠ [])
    (h : ∀ c ∈ s.data, c.isDigit = true) : pyIntParses s = true := by
  rw [pyIntParses, stripWs_of_all_digits s.data h]
  cases hd : s.data with
  | nil => exact absurd hd hne
  | cons c rest =>
    have hc : c.isDigit = true := h c (hd ▸ List.mem_cons_self c rest)
    have hplus : ¬(c = '+' || c = '-') = true := by
      intro hx
      rcases Bool.or_eq_true_iff.mp hx with hx | hx
      · rw [decide_eq_true_iff] at hx
        subst hx
        simp [Char.isDigit] at hc
      · rw [decide_eq_true_iff] at hx
        subst hx
        simp [Char.isDigit] at hc
    rw [show pyIntCore (c :: rest) = pyBody (c :: rest) from by
          simp only [pyIntCore, Bool.not_eq_true] at hplus ⊢
          rw [hplus]
          simp]
    rw [show pyBody (c :: rest) = (c.isDigit && digitsU rest) from rfl]
    rw [hc, digitsU_of_all_digits rest
          (fun c2 hc2 => h c2 (hd ▸ List.mem_cons_of_mem c hc2))]
    rfl

theorem pyIntParses_natToStr (n : Nat) : pyIntParses (natToStr n) = true :=
  pyIntParses_of_all_digits (natToStr n) (natToStr_ne_nil n)
    (natToStr_all_digits n)

theorem pyIntParses_length_key : pyIntParses "length" = false := by decide

theorem getS_some_mem_keys {V : Type} (s : Store V) (k : String) (v : V)
    (h : getS s k = some v) : k ∈ keysS s := by
  induction s with
  | nil => simp [getS] at h
  | cons e rest ih =>
    obtain ⟨k0, v0⟩ := e
    by_cases h0 : k0 = k
    · subst h0
      simp [keysS]
    · rw [show getS ((k0, v0) :: rest) k = getS rest k from by
            simp [getS, h0]] at h
      simp only [keysS, List.map_cons, List.mem_cons]
      exact Or.inr (ih h)

theorem mem_keys_getS_some {V : Type} (s : Store V) (k : String)
    (h : k ∈ keysS s) : ∃ v, getS s k = some v := by
  induction s with
  | nil => simp [keysS] at h
  | cons e rest ih =>
    obtain ⟨k0, v0⟩ := e
    by_cases h0 : k0 = k
    · subst h0
      exact ⟨v0, by simp [getS]⟩
    · simp only [keysS, List.map_cons, List.mem_cons] at h
      rcases h with h | h
      · exact absurd h.symm h0
      · obtain ⟨v, hv⟩ := ih h
        exact ⟨v, by simp [getS, h0, hv]⟩

theorem mergeEntries_idx {V : Type} (es : List (String × V)) :
    ∀ out idx, (mergeEntries (out, idx) es).2 = idx + posCount es := by
  induction es with
  | nil => intro out idx; simp [mergeEntries, posCount]
  | cons e rest ih =>
    intro out idx
    by_cases he : pyIntParses e.1 = true
    · rw [show mergeEntries (out, idx) (e :: rest)
            = mergeEntries (putS out (natToStr idx) e.2, idx + 1) rest from by
            simp [mergeEntries, mergeEntry, he]]
      rw [ih]
      simp [posCount, List.countP_cons, he]
      omega
    · rw [show mergeEntries (out, idx) (e :: rest)
            = mergeEntries (putS out e.1 e.2, idx) rest from by
            simp [mergeEntries, mergeEntry, he]]
      rw [ih]
      simp [posCount, List.countP_cons, he]

theorem getS_mergeEntries_pos_lt {V : Type} (es : List (String × V)) :
    ∀ out idx p, p < idx →
      getS (mergeEntries (out, idx) es).1 (natToStr p)
        = getS out (natToStr p) := by
  induction es with
  | nil => intro out idx p hp; simp [mergeEntries]
  | cons e rest ih =>
    intro out idx p hp
    by_cases he : pyIntParses e.1 = true
    · rw [show mergeEntries (out, idx) (e :: rest)
            = mergeEntries (putS out (natToStr idx) e.2, idx + 1) rest from by
            simp [mergeEntries, mergeEntry, he]]
      rw [ih _ _ p (by omega)]
      exact getS_putS_other out (natToStr idx) (natToStr p) e.2
        (fun hh => by
          have := natToStr_injective hh
          omega)
    · rw [show mergeEntries (out, idx) (e :: rest)
            = mergeEntries (putS out e.1 e.2, idx) rest from by
            simp [mergeEntries, mergeEntry, he]]
      rw [ih _ _ p hp]
      refine getS_putS_other out e.1 (natToStr p) e.2 (fun hh => ?_)
      rw [← hh] at he
      exact he (pyIntParses_natToStr p)

theorem getS_mergeEntries_pos {V : Type} (es : List (String × V)) :
    ∀ out idx r, r < (es.filter (fun e => pyIntParses e.1)).length →
      getS (mergeEntries (out, idx) es).1 (natToStr (idx + r))
        = ((es.filter (fun e => pyIntParses e.1)).get? r).map (·.2) := by
  induction es with
  | nil => intro out idx r hr; simp at hr
  | cons e rest ih =>
    intro out idx r hr
    by_cases he : pyIntParses e.1 = true
    · rw [show mergeEntries (out, idx) (e :: rest)
            = mergeEntries (putS out (natToStr idx) e.2, idx + 1) rest from by
            simp [mergeEntries, mergeEntry, he]]
      have hfil : (e :: rest).filter (fun e => pyIntParses e.1)
          = e :: rest.filter (fun e => pyIntParses e.1) := by
        simp [List.filter_cons, he]
      cases r with
      | zero =>
        rw [show idx + 0 = idx from rfl]
        rw [getS_mergeEntries_pos_lt rest _ (idx + 1) idx (by omega)]
        rw [getS_putS_same, hfil]
        rfl
      | succ r2 =>
        rw [hfil] at hr
        have hr2 : r2 < (rest.filter (fun e => pyIntParses e.1)).length := by
          simpa using hr
        rw [show idx + (r2 + 1) = (idx + 1) + r2 from by omega]
        rw [ih _ (idx + 1) r2 hr2, hfil]
        rfl
    · rw [show mergeEntries (out, idx) (e :: rest)
            = mergeEntries (putS out e.1 e.2, idx) rest from by
            simp [mergeEntries, mergeEntry, he]]
      have hfil : (e :: rest).filter (fun e => pyIntParses e.1)
          = rest.filter (fun e => pyIntParses e.1) := by
        simp [List.filter_cons, he]
      rw [hfil] at hr ⊢
      exact ih _ idx r hr

theorem getS_mergeEntries_meta {V : Type} (es : List (String × V)) :
    ∀ out idx k, pyIntParses k = false →
      getS (mergeEntries (out, idx) es).1 k
        = lastWrite k (getS out k) es := by
  induction es with
  | nil => intro out idx k hk; simp [mergeEntries, lastWrite]
  | cons e rest ih =>
    intro out idx k hk
    by_cases he : pyIntParses e.1 = true
    · rw [show mergeEntries (out, idx) (e :: rest)
            = mergeEntries (putS out (natToStr idx) e.2, idx + 1) rest from by
            simp [mergeEntries, mergeEntry, he]]
      rw [ih _ _ k hk]
      have hne : e.1 ≠ k := fun hh => by
        rw [hh, hk] at he
        exact absurd he (by decide)
      rw [show lastWrite k (getS (putS out (natToStr idx) e.2) k) rest
            = lastWrite k (getS out k) rest from by
            rw [getS_putS_other out (natToStr idx) k e.2 (fun hh => by
              rw [hh, pyIntParses_natToStr] at hk
              cases hk)]]
      rw [show lastWrite k (getS out k) (e :: rest)
            = lastWrite k (getS out k) rest from by
            simp [lastWrite, hne]]
    · rw [show mergeEntries (out, idx) (e :: rest)
            = mergeEntries (putS out e.1 e.2, idx) rest from by
            simp [mergeEntries, mergeEntry, he]]
      rw [ih _ _ k hk]
      by_cases hek : e.1 = k
      · rw [show lastWrite k (getS out k) (e :: rest)
              = lastWrite k (some e.2) rest from by simp [lastWrite, hek]]
        rw [hek, getS_putS_same]
      · rw [getS_putS_other out e.1 k e.2 (fun hh => hek hh.symm)]
        rw [show lastWrite k (getS out k) (e :: rest)
              = lastWrite k (getS out k) rest from by simp [lastWrite, hek]]

theorem keysS_mergeEntries {V : Type} (es : List (String × V)) :
    ∀ out idx k, k ∈ keysS (mergeEntries (out, idx) es).1 →
      k ∈ keysS out ∨
        (∃ p, idx ≤ p ∧ p < idx + posCount es ∧ k = natToStr p) ∨
        (k ∈ es.map (·.1) ∧ pyIntParses k = false) := by
  induction es with
  | nil => intro out idx k hk; exact Or.inl hk
  | cons e rest ih =>
    intro out idx k hk
    by_cases he : pyIntParses e.1 = true
    · rw [show mergeEntries (out, idx) (e :: rest)
            = mergeEntries (putS out (natToStr idx) e.2, idx + 1) rest from by
            simp [mergeEntries, mergeEntry, he]] at hk
      rcases ih _ _ k hk with h | h | h
      · rcases (keysS_putS out (natToStr idx) e.2 k).mp h with h2 | h2
        · exact Or.inl h2
        · have hcnt : posCount (e :: rest) = posCount rest + 1 := by
            simp [posCount, List.countP_cons, he]
          refine Or.inr (Or.inl ⟨idx, le_refl idx, ?_, h2⟩)
          omega
      · obtain ⟨p, hp1, hp2, hp3⟩ := h
        have hcnt : posCount (e :: rest) = posCount rest + 1 := by
          simp [posCount, List.countP_cons, he]
        refine Or.inr (Or.inl ⟨p, by omega, by omega, hp3⟩)
      · exact Or.inr (Or.inr ⟨List.mem_cons_of_mem _ h.1, h.2⟩)
    · rw [show mergeEntries (out, idx) (e :: rest)
            = mergeEntries (putS out e.1 e.2, idx) rest from by
            simp [mergeEntries, mergeEntry, he]] at hk
      rcases ih _ _ k hk with h | h | h
      · rcases (keysS_putS out e.1 e.2 k).mp h with h2 | h2
        · exact Or.inl h2
        · simp only [Bool.not_eq_true] at he
          refine Or.inr (Or.inr ⟨?_, h2 ▸ he⟩)
          exact h2 ▸ List.mem_cons_self _ _
      · obtain ⟨p, hp1, hp2, hp3⟩ := h
        have hcnt : posCount (e :: rest) = posCount rest := by
          simp [posCount, List.countP_cons, he]
        refine Or.inr (Or.inl ⟨p, hp1, by omega, hp3⟩)
      · exact Or.inr (Or.inr ⟨List.mem_cons_of_mem _ h.1, h.2⟩)

theorem mergeEntries_nodupKeys {V : Type} (es : List (String × V)) :
    ∀ out idx, (keysS out).Nodup →
      (keysS (mergeEntries (out, idx) es).1).Nodup := by
  induction es with
  | nil => intro out idx h; exact h
  | cons e rest ih =>
    intro out idx h
    by_cases he : pyIntParses e.1 = true
    · rw [show mergeEntries (out, idx) (e :: rest)
            = mergeEntries (putS out (natToStr idx) e.2, idx + 1) rest from by
            simp [mergeEntries, mergeEntry, he]]
      exact ih _ _ (putS_nodupKeys out (natToStr idx) e.2 h)
    · rw [show mergeEntries (out, idx) (e :: rest)
            = mergeEntries (putS out e.1 e.2, idx) rest from by
            simp [mergeEntries, mergeEntry, he]]
      exact ih _ _ (putS_nodupKeys out e.1 e.2 h)

theorem mergePass_eq_mergeFrom {V : Type} (dbs : List (Store V)) :
    mergePass dbs = mergeFrom ([], 0) dbs := rfl

theorem posCount_cursorList {V : Type} (db : Store V) :
    posCount (cursorList db) = posCount db :=
  List.Perm.countP_eq _ (cursorList_perm db)

theorem mergeFrom_idx {V : Type} (dbs : List (Store V)) :
    ∀ out idx, (mergeFrom (out, idx) dbs).2
      = idx + ((dbs.map (fun db => posCount db)).sum) := by
  induction dbs with
  | nil => intro out idx; simp [mergeFrom]
  | cons db rest ih =>
    intro out idx
    rw [show mergeFrom (out, idx) (db :: rest)
          = mergeFrom (mergeEntries (out, idx) (cursorList db)) rest from rfl]
    rw [show mergeEntries (out, idx) (cursorList db)
          = ((mergeEntries (out, idx) (cursorList db)).1,
             (mergeEntries (out, idx) (cursorList db)).2) from rfl]
    rw [ih, mergeEntries_idx, posCount_cursorList]
    simp
    omega

theorem getS_mergeFrom_pos_lt {V : Type} (dbs : List (Store V)) :
    ∀ out idx p, p < idx →
      getS (mergeFrom (out, idx) dbs).1 (natToStr p)
        = getS out (natToStr p) := by
  induction dbs with
  | nil => intro out idx p hp; rfl
  | cons db rest ih =>
    intro out idx p hp
    rw [show mergeFrom (out, idx) (db :: rest)
          = mergeFrom (mergeEntries (out, idx) (cursorList db)) rest from rfl]
    rw [show mergeEntries (out, idx) (cursorList db)
          = ((mergeEntries (out, idx) (cursorList db)).1,
             (mergeEntries (out, idx) (cursorList db)).2) from rfl]
    rw [mergeEntries_idx]
    rw [ih _ _ p (by omega)]
    exact getS_mergeEntries_pos_lt _ _ _ p hp

/-- Core renumbering fact: the `r`-th positional entry of shard `s` (in
cursor order) is written at merged position `idx₀ + posOffset s + r` and
survives all later writes of the merge pass. -/
theorem getS_mergeFrom_pos {V : Type} (dbs : List (Store V)) :
    ∀ out idx s r, s < dbs.length →
      r < posCount (cursorList (dbs.getD s [])) →
      getS (mergeFrom (out, idx) dbs).1
          (natToStr (idx + posOffset dbs s + r))
        = (((cursorList (dbs.getD s [])).filter
              (fun e => pyIntParses e.1)).get? r).map (·.2) := by
  induction dbs with
  | nil => intro out idx s r hs hr; simp at hs
  | cons db rest ih =>
    intro out idx s r hs hr
    rw [show mergeFrom (out, idx) (db :: rest)
          = mergeFrom (mergeEntries (out, idx) (cursorList db)) rest from rfl]
    rw [show mergeEntries (out, idx) (cursorList db)
          = ((mergeEntries (out, idx) (cursorList db)).1,
             (mergeEntries (out, idx) (cursorList db)).2) from rfl]
    cases s with
    | zero =>
      rw [show (db :: rest).getD 0 [] = db from rfl] at hr ⊢
      rw [show posOffset (db :: rest) 0 = 0 from by simp [posOffset]]
      rw [show idx + 0 + r = idx + r from by omega]
      have hr2 : r < (List.filter (fun e => pyIntParses e.1)
          (cursorList db)).length := by
        rw [show (List.filter (fun e => pyIntParses e.1)
              (cursorList db)).length = posCount (cursorList db) from by
              rw [posCount, List.countP_eq_length_filter]]
        exact hr
      rw [getS_mergeFrom_pos_lt rest _ _ (idx + r) (by
        rw [mergeEntries_idx, posCount_cursorList]
        rw [posCount_cursorList] at hr
        omega)]
      exact getS_mergeEntries_pos (cursorList db) out idx r hr2
    | succ s2 =>
      rw [show (db :: rest).getD (s2 + 1) [] = rest.getD s2 [] from rfl]
        at hr ⊢
      rw [show posOffset (db :: rest) (s2 + 1)
            = posCount db + posOffset rest s2 from by
            simp [posOffset, List.take_succ_cons]]
      rw [mergeEntries_idx, posCount_cursorList]
      rw [show idx + (posCount db + posOffset rest s2) + r
            = (idx + posCount db) + posOffset rest s2 + r from by omega]
      exact ih _ _ s2 r (by simpa using hs) hr

theorem getS_mergeFrom_meta {V : Type} (dbs : List (Store V)) :
    ∀ out idx k, pyIntParses k = false →
      getS (mergeFrom (out, idx) dbs).1 k
        = dbs.foldl (fun a db => lastWrite k a (cursorList db))
            (getS out k) := by
  induction dbs with
  | nil => intro out idx k hk; rfl
  | cons db rest ih =>
    intro out idx k hk
    rw [show mergeFrom (out, idx) (db :: rest)
          = mergeFrom (mergeEntries (out, idx) (cursorList db)) rest from rfl]
    rw [show mergeEntries (out, idx) (cursorList db)
          = ((mergeEntries (out, idx) (cursorList db)).1,
             (mergeEntries (out, idx) (cursorList db)).2) from rfl]
    rw [ih _ _ k hk, getS_mergeEntries_meta _ _ _ k hk]
    rfl

theorem mergeFrom_idx_mono {V : Type} (dbs : List (Store V))
    (out : Store V) (idx : Nat) : idx ≤ (mergeFrom (out, idx) dbs).2 := by
  rw [mergeFrom_idx]
  omega

theorem keysS_mergeFrom {V : Type} (dbs : List (Store V)) :
    ∀ out idx k, k ∈ keysS (mergeFrom (out, idx) dbs).1 →
      k ∈ keysS out ∨
        (∃ p, idx ≤ p ∧ p < (mergeFrom (out, idx) dbs).2 ∧
          k = natToStr p) ∨
        (∃ db ∈ dbs, k ∈ keysS db ∧ pyIntParses k = false) := by
  induction dbs with
  | nil => intro out idx k hk; exact Or.inl hk
  | cons db rest ih =>
    intro out idx k hk
    rw [show mergeFrom (out, idx) (db :: rest)
          = mergeFrom (mergeEntries (out, idx) (cursorList db)) rest from
          rfl] at hk ⊢
    rw [show mergeEntries (out, idx) (cursorList db)
          = ((mergeEntries (out, idx) (cursorList db)).1,
             (mergeEntries (out, idx) (cursorList db)).2) from rfl] at hk ⊢
    have hacc2 : (mergeEntries (out, idx) (cursorList db)).2
        = idx + posCount (cursorList db) := mergeEntries_idx _ out idx
    have hmono := mergeFrom_idx_mono rest
      (mergeEntries (out, idx) (cursorList db)).1
      (mergeEntries (out, idx) (cursorList db)).2
    rcases ih _ _ k hk with h | h | h
    · rcases keysS_mergeEntries (cursorList db) out idx k h with h2 | h2 | h2
      · exact Or.inl h2
      · obtain ⟨p, hp1, hp2, hp3⟩ := h2
        refine Or.inr (Or.inl ⟨p, hp1, ?_, hp3⟩)
        omega
      · refine Or.inr (Or.inr ⟨db, List.mem_cons_self _ _, ?_, h2.2⟩)
        have hperm : List.Perm ((cursorList db).map (·.1)) (keysS db) :=
          (cursorList_perm db).map _
        exact hperm.mem_iff.mp h2.1
    · obtain ⟨p, hp1, hp2, hp3⟩ := h
      refine Or.inr (Or.inl ⟨p, by omega, hp2, hp3⟩)
    · obtain ⟨db2, hdb2, hk2⟩ := h
      exact Or.inr (Or.inr ⟨db2, List.mem_cons_of_mem _ hdb2, hk2⟩)

theorem mergeFrom_nodupKeys {V : Type} (dbs : List (Store V)) :
    ∀ out idx, (keysS out).Nodup →
      (keysS (mergeFrom (out, idx) dbs).1).Nodup := by
  induction dbs with
  | nil => intro out idx h; exact h
  | cons db rest ih =>
    intro out idx h
    rw [show mergeFrom (out, idx) (db :: rest)
          = mergeFrom (mergeEntries (out, idx) (cursorList db)) rest from rfl]
    rw [show mergeEntries (out, idx) (cursorList db)
          = ((mergeEntries (out, idx) (cursorList db)).1,
             (mergeEntries (out, idx) (cursorList db)).2) from rfl]
    exact ih _ _ (mergeEntries_nodupKeys _ out idx h)

theorem exists_shard_pos {V : Type} (dbs : List (Store V)) :
    ∀ p, p < (dbs.map (fun db => posCount db)).sum →
      ∃ s r, s < dbs.length ∧ r < posCount (dbs.getD s []) ∧
        p = posOffset dbs s + r := by
  induction dbs with
  | nil => intro p hp; simp at hp
  | cons db rest ih =>
    intro p hp
    by_cases hlt : p < posCount db
    · exact ⟨0, p, by simp, by simpa using hlt, by simp [posOffset]⟩
    · have hp2 : p - posCount db < (rest.map (fun db => posCount db)).sum := by
        simp only [List.map_cons, List.sum_cons] at hp
        omega
      obtain ⟨s, r, hs, hr, heq⟩ := ih (p - posCount db) hp2
      refine ⟨s + 1, r, by simpa using hs, by simpa using hr, ?_⟩
      rw [show posOffset (db :: rest) (s + 1)
            = posCount db + posOffset rest s from by
            simp [posOffset, List.take_succ_cons]]
      omega

theorem natToStr_ne_length (p : Nat) : natToStr p ≠ "length" := by
  intro h
  have h1 := pyIntParses_natToStr p
  rw [h, pyIntParses_length_key] at h1
  cases h1

theorem mergePass_idx {V : Type} (dbs : List (Store V)) :
    (mergePass dbs).2 = mergeTotal dbs := by
  rw [mergePass_eq_mergeFrom, mergeTotal]
  have := mergeFrom_idx dbs [] 0
  omega

theorem getS_merge_lmdbs_num {α : Type} (dbs : List (Store (PVal α)))
    (p : Nat) :
    getS (merge_lmdbs dbs) (natToStr p) = getS (mergePass dbs).1 (natToStr p) :=
  getS_putS_other _ "length" (natToStr p) _ (natToStr_ne_length p)

theorem getS_merge_lmdbs_length {α : Type} (dbs : List (Store (PVal α))) :
    getS (merge_lmdbs dbs) "length" = some (PVal.num (mergeTotal dbs)) := by
  rw [show merge_lmdbs dbs
        = putS (mergePass dbs).1 "length" (PVal.num (mergePass dbs).2) from
        rfl]
  rw [getS_putS_same, mergePass_idx]

theorem lmdbNumEntries_merge_lmdbs {α : Type} (dbs : List (Store (PVal α))) :
    lmdbNumEntries (merge_lmdbs dbs) = some (mergeTotal dbs) := by
  rw [lmdbNumEntries, getS_merge_lmdbs_length]

theorem getS_merge_lmdbs_pos_isSome {α : Type} (dbs : List (Store (PVal α)))
    (p : Nat) (hp : p < mergeTotal dbs) :
    (getS (merge_lmdbs dbs) (natToStr p)).isSome = true := by
  obtain ⟨s, r, hs, hr, heq⟩ := exists_shard_pos dbs p hp
  rw [getS_merge_lmdbs_num]
  have hr2 : r < posCount (cursorList (dbs.getD s [])) := by
    rw [posCount_cursorList]
    exact hr
  rw [mergePass_eq_mergeFrom]
  rw [show natToStr p = natToStr (0 + posOffset dbs s + r) from by
        rw [show 0 + posOffset dbs s + r = p from by omega]]
  rw [getS_mergeFrom_pos dbs [] 0 s r hs hr2]
  have hlen : r < ((cursorList (dbs.getD s [])).filter
      (fun e => pyIntParses e.1)).length := by
    rw [← List.countP_eq_length_filter]
    exact hr2
  rw [List.get?_eq_get hlen]
  rfl

theorem merge_lmdbs_posKey_shape {α : Type} (dbs : List (Store (PVal α)))
    (k : String) (hk : pyIntParses k = true)
    (hmem : k ∈ keysS (merge_lmdbs dbs)) :
    ∃ p, p < mergeTotal dbs ∧ k = natToStr p := by
  rw [show merge_lmdbs dbs
        = putS (mergePass dbs).1 "length" (PVal.num (mergePass dbs).2) from
        rfl] at hmem
  rcases (keysS_putS _ "length" _ k).mp hmem with h | h
  · rw [mergePass_eq_mergeFrom] at h
    rcases keysS_mergeFrom dbs [] 0 k h with h2 | h2 | h2
    · simp [keysS] at h2
    · obtain ⟨p, _, hp2, hp3⟩ := h2
      refine ⟨p, ?_, hp3⟩
      have := mergeFrom_idx dbs [] 0
      rw [this] at hp2
      rw [mergeTotal]
      omega
    · obtain ⟨_, _, _, hfalse⟩ := h2
      rw [hk] at hfalse
      cases hfalse
  · rw [h, pyIntParses_length_key] at hk
    cases hk

theorem merge_lmdbs_nodupKeys {α : Type} (dbs : List (Store (PVal α))) :
    (keysS (merge_lmdbs dbs)).Nodup := by
  rw [show merge_lmdbs dbs
        = putS (mergePass dbs).1 "length" (PVal.num (mergePass dbs).2) from
        rfl]
  refine putS_nodupKeys _ _ _ ?_
  rw [mergePass_eq_mergeFrom]
  exact mergeFrom_nodupKeys dbs [] 0 (by simp [keysS])

theorem posCount_merge_lmdbs {α : Type} (dbs : List (Store (PVal α))) :
    posCount (merge_lmdbs dbs) = mergeTotal dbs := by
  have hcount : posCount (merge_lmdbs dbs)
      = ((keysS (merge_lmdbs dbs)).filter pyIntParses).length := by
    rw [← List.countP_eq_length_filter, posCount, keysS, List.countP_map]
    rfl
  have hnodup1 : ((keysS (merge_lmdbs dbs)).filter pyIntParses).Nodup :=
    (merge_lmdbs_nodupKeys dbs).filter _
  have hnodup2 : ((List.range (mergeTotal dbs)).map natToStr).Nodup :=
    (List.nodup_range _).map natToStr_injective
  have hperm : List.Perm ((keysS (merge_lmdbs dbs)).filter pyIntParses)
      ((List.range (mergeTotal dbs)).map natToStr) := by
    rw [List.perm_ext_iff_of_nodup hnodup1 hnodup2]
    intro k
    constructor
    · intro hmem
      obtain ⟨hmem2, hpy⟩ := List.mem_filter.mp hmem
      obtain ⟨p, hp, hkp⟩ := merge_lmdbs_posKey_shape dbs k hpy hmem2
      exact List.mem_map.mpr ⟨p, List.mem_range.mpr hp, hkp.symm⟩
    · intro hmem
      obtain ⟨p, hp, hkp⟩ := List.mem_map.mp hmem
      have hp2 := List.mem_range.mp hp
      have hsome := getS_merge_lmdbs_pos_isSome dbs p hp2
      obtain ⟨v, hv⟩ := Option.isSome_iff_exists.mp hsome
      refine List.mem_filter.mpr ⟨?_, ?_⟩
      · rw [← hkp]
        exact getS_some_mem_keys _ _ v hv
      · rw [← hkp]
        exact pyIntParses_natToStr p
  rw [hcount, hperm.length_eq, List.length_map, List.length_range]

theorem getS_none_of_not_mem {V : Type} (s : Store V) (k : String)
    (h : k ∉ keysS s) : getS s k = none := by
  cases hg : getS s k with
  | none => rfl
  | some v => exact absurd (getS_some_mem_keys s k v hg) h

theorem putS_of_fresh {V : Type} (s : Store V) (k : String) (v : V)
    (h : k ∉ keysS s) : putS s k v = s ++ [(k, v)] := by
  induction s with
  | nil => rfl
  | cons e rest ih =>
    obtain ⟨k0, v0⟩ := e
    simp only [keysS, List.map_cons, List.mem_cons] at h
    push_neg at h
    have hne : ¬k0 = k := fun hh => h.1 hh.symm
    rw [show putS ((k0, v0) :: rest) k v = (k0, v0) :: putS rest k v from by
          simp [putS, hne]]
    rw [ih h.2]
    rfl

theorem foldl_putS_of_fresh {V : Type} (ps : List (String × V)) :
    ∀ st : Store V, (ps.map (·.1)).Nodup →
      (∀ k ∈ ps.map (·.1), k ∉ keysS st) →
      ps.foldl (fun st e => putS st e.1 e.2) st = st ++ ps := by
  induction ps with
  | nil => intro st _ _; simp
  | cons e rest ih =>
    intro st hnodup hfresh
    obtain ⟨k, v⟩ := e
    simp only [List.map_cons, List.nodup_cons] at hnodup
    have hk : k ∉ keysS st :=
      hfresh k (by simp)
    rw [show List.foldl (fun st e => putS st e.1 e.2) st ((k, v) :: rest)
          = List.foldl (fun st e => putS st e.1 e.2) (putS st k v) rest from
          rfl]
    rw [putS_of_fresh st k v hk]
    rw [ih (st ++ [(k, v)]) hnodup.2 ?_]
    · simp
    · intro k2 hk2
      rw [show keysS (st ++ [(k, v)]) = keysS st ++ [k] from by
            simp [keysS]]
      intro hmem
      rcases List.mem_append.mp hmem with h2 | h2
      · exact hfresh k2 (List.mem_cons_of_mem _ hk2) h2
      · rw [List.mem_singleton] at h2
        exact hnodup.1 (h2 ▸ hk2)

theorem keys_enum_map {α : Type} (samples : List α) :
    (samples.enum.map
        (fun e => (natToStr e.1, PVal.obj e.2) : Nat × α → String × PVal α)).map
        (·.1)
      = (List.range samples.length).map natToStr := by
  rw [List.map_map, ← List.enum_map_fst samples, List.map_map]
  congr 1

theorem write_crns_to_lmdb_shape {α : Type} (samples : List α)
    (meta : List (String × α))
    (hpy : ∀ k ∈ meta.map (·.1), pyIntParses k = false)
    (hlen : ∀ k ∈ meta.map (·.1), k ≠ "length")
    (hnodup : (meta.map (·.1)).Nodup) :
    write_crns_to_lmdb samples meta = writerShape samples meta := by
  have hstage1 : samples.enum.foldl
      (fun st e => putS st (natToStr e.1) (PVal.obj e.2)) ([] : Store (PVal α))
      = samples.enum.map (fun e => (natToStr e.1, PVal.obj e.2)) := by
    rw [show samples.enum.foldl
          (fun st e => putS st (natToStr e.1) (PVal.obj e.2))
          ([] : Store (PVal α))
          = (samples.enum.map
              (fun e => (natToStr e.1, PVal.obj e.2))).foldl
            (fun st e => putS st e.1 e.2) [] from by
          rw [List.foldl_map]]
    rw [foldl_putS_of_fresh _ [] ?_ ?_]
    · simp
    · rw [keys_enum_map]
      exact (List.nodup_range _).map natToStr_injective
    · intro k _
      simp [keysS]
  have hkeys1 : keysS (samples.enum.map
      (fun e => (natToStr e.1, PVal.obj e.2)))
      = (List.range samples.length).map natToStr := keys_enum_map samples
  have hstage2 : putS (samples.enum.map
        (fun e => (natToStr e.1, PVal.obj e.2)))
        "length" (PVal.num samples.length)
      = samples.enum.map (fun e => (natToStr e.1, PVal.obj e.2))
        ++ [("length", PVal.num samples.length)] := by
    refine putS_of_fresh _ _ _ ?_
    rw [show keysS (samples.enum.map (fun e => (natToStr e.1, PVal.obj e.2)))
          = (samples.enum.map
              (fun e => (natToStr e.1, PVal.obj e.2))).map (·.1) from rfl]
    rw [keys_enum_map]
    intro hmem
    obtain ⟨p, _, hp⟩ := List.mem_map.mp hmem
    exact natToStr_ne_length p hp
  rw [show write_crns_to_lmdb samples meta
        = meta.foldl (fun st e => putS st e.1 (PVal.obj e.2))
            (putS (samples.enum.foldl
              (fun st e => putS st (natToStr e.1) (PVal.obj e.2)) [])
              "length" (PVal.num samples.length)) from rfl]
  rw [hstage1, hstage2]
  rw [show List.foldl (fun st e => putS st e.1 (PVal.obj e.2))
        (samples.enum.map (fun e => (natToStr e.1, PVal.obj e.2))
          ++ [("length", PVal.num samples.length)]) meta
        = List.foldl (fun st e => putS st e.1 e.2)
            (samples.enum.map (fun e => (natToStr e.1, PVal.obj e.2))
              ++ [("length", PVal.num samples.length)])
            (meta.map (fun e => (e.1, PVal.obj e.2))) from by
        rw [List.foldl_map]]
  rw [foldl_putS_of_fresh _ _ ?_ ?_]
  · rw [writerShape]
  · rw [show (meta.map (fun e => (e.1, PVal.obj e.2))).map (·.1)
          = meta.map (·.1) from by rw [List.map_map]; congr 1]
    exact hnodup
  · rw [show (meta.map (fun e => (e.1, PVal.obj e.2))).map (·.1)
          = meta.map (·.1) from by rw [List.map_map]; congr 1]
    intro k hk
    rw [show keysS (samples.enum.map (fun e => (natToStr e.1, PVal.obj e.2))
          ++ [("length", PVal.num samples.length)])
          = keysS (samples.enum.map (fun e => (natToStr e.1, PVal.obj e.2)))
            ++ ["length"] from by simp [keysS]]
    intro hmem
    rcases List.mem_append.mp hmem with h2 | h2
    · rw [show keysS (samples.enum.map
            (fun e => (natToStr e.1, PVal.obj e.2)))
            = (samples.enum.map
                (fun e => (natToStr e.1, PVal.obj e.2))).map (·.1) from rfl]
        at h2
      rw [keys_enum_map] at h2
      obtain ⟨p, _, hp⟩ := List.mem_map.mp h2
      have := hpy k hk
      rw [← hp, pyIntParses_natToStr] at this
      cases this
    · rw [List.mem_singleton] at h2
      exact hlen k hk h2

theorem getS_append_of_mem {V : Type} (l1 l2 : Store V) (k : String)
    (h : k ∈ keysS l1) : getS (l1 ++ l2) k = getS l1 k := by
  induction l1 with
  | nil => simp [keysS] at h
  | cons e rest ih =>
    obtain ⟨k0, v0⟩ := e
    by_cases h0 : k0 = k
    · simp [getS, h0]
    · simp only [keysS, List.map_cons, List.mem_cons] at h
      rcases h with h | h
      · exact absurd h.symm h0
      · rw [show ((k0, v0) :: rest) ++ l2 = (k0, v0) :: (rest ++ l2) from rfl]
        rw [show getS ((k0, v0) :: (rest ++ l2)) k = getS (rest ++ l2) k from
              by simp [getS, h0]]
        rw [show getS ((k0, v0) :: rest) k = getS rest k from by
              simp [getS, h0]]
        exact ih h

theorem getS_append_of_not_mem {V : Type} (l1 l2 : Store V) (k : String)
    (h : k ∉ keysS l1) : getS (l1 ++ l2) k = getS l2 k := by
  induction l1 with
  | nil => rfl
  | cons e rest ih =>
    obtain ⟨k0, v0⟩ := e
    simp only [keysS, List.map_cons, List.mem_cons] at h
    push_neg at h
    have h0 : ¬k0 = k := fun hh => h.1 hh.symm
    rw [show ((k0, v0) :: rest) ++ l2 = (k0, v0) :: (rest ++ l2) from rfl]
    rw [show getS ((k0, v0) :: (rest ++ l2)) k = getS (rest ++ l2) k from by
          simp [getS, h0]]
    exact ih h.2

theorem getS_enumFrom_map {α : Type} (samples : List α) :
    ∀ b i, getS ((List.enumFrom b samples).map
        (fun e => (natToStr e.1, PVal.obj e.2))) (natToStr (b + i))
      = (samples.get? i).map PVal.obj := by
  induction samples with
  | nil => intro b i; simp [getS]
  | cons s rest ih =>
    intro b i
    rw [List.enumFrom_cons]
    cases i with
    | zero =>
      rw [show b + 0 = b from rfl]
      simp [getS]
    | succ i2 =>
      rw [show ((b, s) :: List.enumFrom (b + 1) rest).map
            (fun e => (natToStr e.1, PVal.obj e.2))
            = (natToStr b, PVal.obj s)
              :: (List.enumFrom (b + 1) rest).map
                (fun e => (natToStr e.1, PVal.obj e.2)) from rfl]
      rw [show getS ((natToStr b, PVal.obj s)
            :: (List.enumFrom (b + 1) rest).map
              (fun e => (natToStr e.1, PVal.obj e.2))) (natToStr (b + (i2 + 1)))
            = getS ((List.enumFrom (b + 1) rest).map
              (fun e => (natToStr e.1, PVal.obj e.2)))
              (natToStr (b + (i2 + 1))) from by
            simp only [getS]
            rw [if_neg (fun hh => by
              have := natToStr_injective hh
              omega)]]
      rw [show b + (i2 + 1) = (b + 1) + i2 from by omega]
      rw [ih (b + 1) i2]
      rfl

theorem keysS_writerShape {α : Type} (samples : List α)
    (meta : List (String × α)) :
    keysS (writerShape samples meta)
      = (List.range samples.length).map natToStr
        ++ ["length"] ++ meta.map (·.1) := by
  rw [writerShape]
  rw [show keysS (samples.enum.map (fun e => (natToStr e.1, PVal.obj e.2))
        ++ [("length", PVal.num samples.length)]
        ++ meta.map (fun e => (e.1, PVal.obj e.2)))
        = keysS (samples.enum.map (fun e => (natToStr e.1, PVal.obj e.2)))
          ++ ["length"]
          ++ keysS (meta.map (fun e => (e.1, PVal.obj e.2))) from by
        simp [keysS]]
  rw [show keysS (samples.enum.map (fun e => (natToStr e.1, PVal.obj e.2)))
        = (List.range samples.length).map natToStr from keys_enum_map samples]
  rw [show keysS (meta.map (fun e => (e.1, PVal.obj e.2)))
        = meta.map (·.1) from by
        rw [keysS, List.map_map]
        congr 1]

theorem posCount_writerShape {α : Type} (samples : List α)
    (meta : List (String × α))
    (hpy : ∀ k ∈ meta.map (·.1), pyIntParses k = false) :
    posCount (writerShape samples meta) = samples.length := by
  rw [writerShape, posCount, List.countP_append, List.countP_append]
  have h1 : List.countP (fun e => pyIntParses e.1)
      (samples.enum.map (fun e => (natToStr e.1, PVal.obj e.2)))
      = (samples.enum.map
          (fun e => (natToStr e.1, PVal.obj e.2))).length := by
    rw [List.countP_eq_length]
    intro e he
    obtain ⟨e0, _, heq⟩ := List.mem_map.mp he
    rw [← heq]
    exact pyIntParses_natToStr e0.1
  have h2 : List.countP (fun e => pyIntParses e.1)
      ([("length", PVal.num samples.length)] : Store (PVal α)) = 0 := by
    rw [List.countP_eq_zero]
    intro e he
    rw [List.mem_singleton] at he
    rw [he]
    simp [pyIntParses_length_key]
  have h3 : List.countP (fun e => pyIntParses e.1)
      (meta.map (fun e => (e.1, PVal.obj e.2))) = 0 := by
    rw [List.countP_eq_zero]
    intro e he
    obtain ⟨e0, he0, heq⟩ := List.mem_map.mp he
    rw [← heq]
    simp only
    rw [hpy e0.1 (List.mem_map.mpr ⟨e0, he0, rfl⟩)]
    simp
  rw [h1, h2, h3]
  simp [List.enum_length]

theorem getS_writerShape_pos {α : Type} (samples : List α)
    (meta : List (String × α)) (i : Nat) (hi : i < samples.length) :
    getS (writerShape samples meta) (natToStr i)
      = (samples.get? i).map PVal.obj := by
  rw [writerShape, List.append_assoc]
  rw [getS_append_of_mem _ _ _ (by
    rw [show keysS (samples.enum.map (fun e => (natToStr e.1, PVal.obj e.2)))
          = (List.range samples.length).map natToStr from keys_enum_map _]
    exact List.mem_map.mpr ⟨i, List.mem_range.mpr hi, rfl⟩)]
  rw [show natToStr i = natToStr (0 + i) from by rw [Nat.zero_add]]
  exact getS_enumFrom_map samples 0 i

theorem getS_writerShape_length {α : Type} (samples : List α)
    (meta : List (String × α)) :
    getS (writerShape samples meta) "length"
      = some (PVal.num samples.length) := by
  rw [writerShape, List.append_assoc]
  rw [getS_append_of_not_mem _ _ _ (by
    rw [show keysS (samples.enum.map (fun e => (natToStr e.1, PVal.obj e.2)))
          = (List.range samples.length).map natToStr from keys_enum_map _]
    intro hmem
    obtain ⟨p, _, hp⟩ := List.mem_map.mp hmem
    exact natToStr_ne_length p hp)]
  rfl

theorem getS_map_of_mem {α : Type} (meta : List (String × α)) :
    ∀ k v, (k, v) ∈ meta → (meta.map (·.1)).Nodup →
      getS (meta.map (fun e => (e.1, PVal.obj e.2))) k
        = some (PVal.obj v) := by
  induction meta with
  | nil => intro k v hmem; simp at hmem
  | cons e rest ih =>
    intro k v hmem hnodup
    obtain ⟨k0, v0⟩ := e
    simp only [List.map_cons, List.nodup_cons] at hnodup
    by_cases h0 : k0 = k
    · subst h0
      rcases List.mem_cons.mp hmem with h | h
      · injection h with h1 h2
        rw [h2]
        simp [getS]
      · exact absurd (List.mem_map.mpr ⟨(k0, v), h, rfl⟩) hnodup.1
    · rcases List.mem_cons.mp hmem with h | h
      · injection h with h1 h2
        exact absurd h1.symm h0
      · rw [show (((k0, v0) :: rest).map (fun e => (e.1, PVal.obj e.2)))
              = (k0, PVal.obj v0) :: rest.map (fun e => (e.1, PVal.obj e.2))
              from rfl]
        rw [show getS ((k0, PVal.obj v0)
              :: rest.map (fun e => (e.1, PVal.obj e.2))) k
              = getS (rest.map (fun e => (e.1, PVal.obj e.2))) k from by
              simp [getS, h0]]
        exact ih k v h hnodup.2

theorem getS_writerShape_meta {α : Type} (samples : List α)
    (meta : List (String × α)) (k : String) (v : α)
    (hmem : (k, v) ∈ meta)
    (hpy : ∀ k2 ∈ meta.map (·.1), pyIntParses k2 = false)
    (hlen : ∀ k2 ∈ meta.map (·.1), k2 ≠ "length")
    (hnodup : (meta.map (·.1)).Nodup) :
    getS (writerShape samples meta) k = some (PVal.obj v) := by
  have hkmem : k ∈ meta.map (·.1) := List.mem_map.mpr ⟨(k, v), hmem, rfl⟩
  rw [writerShape, List.append_assoc]
  rw [getS_append_of_not_mem _ _ _ (by
    rw [show keysS (samples.enum.map (fun e => (natToStr e.1, PVal.obj e.2)))
          = (List.range samples.length).map natToStr from keys_enum_map _]
    intro hmem2
    obtain ⟨p, _, hp⟩ := List.mem_map.mp hmem2
    have := hpy k hkmem
    rw [← hp, pyIntParses_natToStr] at this
    cases this)]
  rw [show ([("length", PVal.num samples.length)]
        ++ meta.map (fun e => (e.1, PVal.obj e.2)) : Store (PVal α))
        = ("length", PVal.num samples.length)
          :: meta.map (fun e => (e.1, PVal.obj e.2)) from rfl]
  have hne : ¬("length" : String) = k := fun hh => hlen k hkmem hh.symm
  rw [show getS (("length", PVal.num samples.length)
        :: meta.map (fun e => (e.1, PVal.obj e.2))) k
        = getS (meta.map (fun e => (e.1, PVal.obj e.2))) k from by
        simp [getS, hne]]
  exact getS_map_of_mem meta k v hmem hnodup

theorem metaOk_pyInt {α : Type} (meta : List (String × α))
    (h : metaOk meta = true) :
    ∀ k ∈ meta.map (·.1), pyIntParses k = false := by
  intro k hk
  rw [metaOk, Bool.and_eq_true, List.all_eq_true] at h
  have := h.1 k hk
  rw [Bool.and_eq_true] at this
  rcases this with ⟨h1, _⟩
  rw [Bool.not_eq_true'] at h1
  exact h1

theorem metaOk_length {α : Type} (meta : List (String × α))
    (h : metaOk meta = true) :
    ∀ k ∈ meta.map (·.1), k ≠ "length" := by
  intro k hk
  rw [metaOk, Bool.and_eq_true, List.all_eq_true] at h
  have := h.1 k hk
  rw [Bool.and_eq_true] at this
  rcases this with ⟨_, h2⟩
  intro he
  rw [he] at h2
  simp at h2

theorem metaOk_nodup {α : Type} (meta : List (String × α))
    (h : metaOk meta = true) : (meta.map (·.1)).Nodup := by
  rw [metaOk, Bool.and_eq_true] at h
  exact of_decide_eq_true h.2

theorem posCount_write_crns {α : Type} (samples : List α)
    (meta : List (String × α)) (h : metaOk meta = true) :
    posCount (write_crns_to_lmdb samples meta) = samples.length := by
  rw [write_crns_to_lmdb_shape samples meta (metaOk_pyInt meta h)
        (metaOk_length meta h) (metaOk_nodup meta h)]
  exact posCount_writerShape samples meta (metaOk_pyInt meta h)

/-- C3: merging writer-produced shards yields a `"length"` metadata value
equal to the sum of the shards' sample counts, which equals the number of
integer-keyed records present in the merged store, and is what the
reader's length resolution returns on the merged store. -/
theorem C3_merge_length_consistency {α : Type}
    (pairs : List (List α × List (String × α)))
    (h : pairs.all (fun pr => metaOk pr.2) = true) :
    getS (merge_lmdbs (pairs.map (fun pr => write_crns_to_lmdb pr.1 pr.2)))
        "length"
      = some (PVal.num ((pairs.map (fun pr => pr.1.length)).sum))
    ∧ lmdbNumEntries (merge_lmdbs (pairs.map
        (fun pr => write_crns_to_lmdb pr.1 pr.2)))
      = some ((pairs.map (fun pr => pr.1.length)).sum)
    ∧ posCount (merge_lmdbs (pairs.map
        (fun pr => write_crns_to_lmdb pr.1 pr.2)))
      = (pairs.map (fun pr => pr.1.length)).sum := by
  have htot : mergeTotal (pairs.map (fun pr => write_crns_to_lmdb pr.1 pr.2))
      = (pairs.map (fun pr => pr.1.length)).sum := by
    rw [mergeTotal, List.map_map]
    congr 1
    refine List.map_congr_left ?_
    intro pr hpr
    exact posCount_write_crns pr.1 pr.2 (List.all_eq_true.mp h pr hpr)
  exact ⟨by rw [getS_merge_lmdbs_length, htot],
         by rw [lmdbNumEntries_merge_lmdbs, htot],
         by rw [posCount_merge_lmdbs, htot]⟩

/-- Witness for C3 at two concrete shards of sizes 2 and 1. -/
theorem C3_merge_length_consistency_witness :
    ([([10, 20], [("dtype", 1)]), ([30], [])]
        : List (List Nat × List (String × Nat))).all
        (fun pr => metaOk pr.2) = true
    ∧ (getS (merge_lmdbs (([([10, 20], [("dtype", 1)]), ([30], [])]
          : List (List Nat × List (String × Nat))).map
          (fun pr => write_crns_to_lmdb pr.1 pr.2))) "length"
        = some (PVal.num ((([([10, 20], [("dtype", 1)]), ([30], [])]
            : List (List Nat × List (String × Nat))).map
            (fun pr => pr.1.length)).sum))
      ∧ lmdbNumEntries (merge_lmdbs (([([10, 20], [("dtype", 1)]), ([30], [])]
          : List (List Nat × List (String × Nat))).map
          (fun pr => write_crns_to_lmdb pr.1 pr.2)))
        = some ((([([10, 20], [("dtype", 1)]), ([30], [])]
            : List (List Nat × List (String × Nat))).map
            (fun pr => pr.1.length)).sum)
      ∧ posCount (merge_lmdbs (([([10, 20], [("dtype", 1)]), ([30], [])]
          : List (List Nat × List (String × Nat))).map
          (fun pr => write_crns_to_lmdb pr.1 pr.2)))
        = (([([10, 20], [("dtype", 1)]), ([30], [])]
            : List (List Nat × List (String × Nat))).map
            (fun pr => pr.1.length)).sum) :=
  ⟨by decide, C3_merge_length_consistency _ (by decide)⟩

/-- C9 counterexample: with one sample and the (pathological) metadata
mapping containing the integer-like key `"0"`, the metadata write
overwrites sample 0, so key `"0"` does not hold the serialization of the
0-th sample as the claim states for every metadata mapping. -/
theorem C9_counterexample :
    getS (write_crns_to_lmdb [1] [("0", 2)]) "0"
      = some (PVal.obj (2 : Nat))
    ∧ getS (write_crns_to_lmdb [1] [("0", 2)]) "0"
      ≠ some (PVal.obj (1 : Nat)) := by
  constructor
  · decide
  · decide

/-- C9 (amended): for a metadata mapping whose keys are not `int()`-like
and not `"length"` (the shapes the pipeline actually supplies), the
writer's store holds the i-th sample under key `f"{i}"`, the sample count
under `"length"`, each metadata value under its key, and no other keys. -/
theorem C9_writer_layout {α : Type} (samples : List α)
    (meta : List (String × α)) (k : String) (v : α) (i : Nat)
    (hm : metaOk meta = true) (hi : i < samples.length)
    (hmem : (k, v) ∈ meta) :
    getS (write_crns_to_lmdb samples meta) (natToStr i)
      = (samples.get? i).map PVal.obj
    ∧ getS (write_crns_to_lmdb samples meta) "length"
      = some (PVal.num samples.length)
    ∧ getS (write_crns_to_lmdb samples meta) k = some (PVal.obj v)
    ∧ keysS (write_crns_to_lmdb samples meta)
      = (List.range samples.length).map natToStr ++ ["length"]
        ++ meta.map (·.1) := by
  have hpy := metaOk_pyInt meta hm
  have hlen := metaOk_length meta hm
  have hnd := metaOk_nodup meta hm
  rw [write_crns_to_lmdb_shape samples meta hpy hlen hnd]
  exact ⟨getS_writerShape_pos samples meta i hi,
         getS_writerShape_length samples meta,
         getS_writerShape_meta samples meta k v hmem hpy hlen hnd,
         keysS_writerShape samples meta⟩

/-- Witness for the amended C9 at two samples and one metadata pair. -/
theorem C9_writer_layout_witness :
    metaOk ([("dtype", 7)] : List (String × Nat)) = true
    ∧ 1 < ([10, 20] : List Nat).length
    ∧ (("dtype", 7) ∈ ([("dtype", 7)] : List (String × Nat)))
    ∧ (getS (write_crns_to_lmdb [10, 20] [("dtype", 7)]) (natToStr 1)
        = (([10, 20] : List Nat).get? 1).map PVal.obj
      ∧ getS (write_crns_to_lmdb [10, 20] [("dtype", 7)]) "length"
        = some (PVal.num ([10, 20] : List Nat).length)
      ∧ getS (write_crns_to_lmdb [10, 20] [("dtype", 7)]) "dtype"
        = some (PVal.obj 7)
      ∧ keysS (write_crns_to_lmdb [10, 20] [("dtype", 7)])
        = (List.range ([10, 20] : List Nat).length).map natToStr
          ++ ["length"] ++ ([("dtype", 7)] : List (String × Nat)).map (·.1)) :=
  ⟨by decide, by decide, by decide,
   C9_writer_layout [10, 20] [("dtype", 7)] "dtype" 7 1 (by decide) (by decide)
     (by decide)⟩

/-- C2 counterexample: one writer shard with 11 samples (integer keys
`"0" .. "10"`). The LMDB cursor yields keys in lexicographic byte order
(`"0", "1", "10", "2", ...`), so the record originally under key `"2"`
(sample value 22) is renumbered to merged position 3, not 2; merged
position 2 receives the record originally under key `"10"`. -/
theorem C2_counterexample :
    getS (write_crns_to_lmdb [20, 21, 22, 23, 24, 25, 26, 27, 28, 29, 30]
        ([] : List (String × Nat))) "2" = some (PVal.obj 22)
    ∧ getS (merge_lmdbs [write_crns_to_lmdb
        [20, 21, 22, 23, 24, 25, 26, 27, 28, 29, 30]
        ([] : List (String × Nat))]) "2" = some (PVal.obj 30)
    ∧ getS (merge_lmdbs [write_crns_to_lmdb
        [20, 21, 22, 23, 24, 25, 26, 27, 28, 29, 30]
        ([] : List (String × Nat))]) "2" ≠ some (PVal.obj 22) := by
  refine ⟨by decide, by decide, by decide⟩

/-- C2 (amended): the merged position of a record is the number of
positional records of all earlier shards plus the rank of its key in
lexicographic byte order among its own shard's positional keys (not its
original integer key): the r-th positional cursor entry of shard s lands
at merged position `posOffset s + r` with its value unchanged. -/
theorem C2_merge_renumbering {α : Type} (dbs : List (Store (PVal α)))
    (s r : Nat) (hs : s < dbs.length)
    (hr : r < posCount (cursorList (dbs.getD s []))) :
    getS (merge_lmdbs dbs) (natToStr (posOffset dbs s + r))
      = (((cursorList (dbs.getD s [])).filter
          (fun e => pyIntParses e.1)).get? r).map (·.2) := by
  rw [getS_merge_lmdbs_num, mergePass_eq_mergeFrom]
  have h := getS_mergeFrom_pos dbs [] 0 s r hs hr
  rw [show 0 + posOffset dbs s + r = posOffset dbs s + r from by omega] at h
  exact h

/-- Witness for the amended C2: two shards; the single record of shard 1
lands at position 1 (one positional record precedes it in shard 0). -/
theorem C2_merge_renumbering_witness :
    1 < ([[("1", PVal.obj 5), ("b", PVal.obj 6)], [("0", PVal.obj 7)]]
        : List (Store (PVal Nat))).length
    ∧ 0 < posCount (cursorList ((([[("1", PVal.obj 5), ("b", PVal.obj 6)],
        [("0", PVal.obj 7)]] : List (Store (PVal Nat)))).getD 1 []))
    ∧ getS (merge_lmdbs ([[("1", PVal.obj 5), ("b", PVal.obj 6)],
        [("0", PVal.obj 7)]] : List (Store (PVal Nat))))
        (natToStr (posOffset ([[("1", PVal.obj 5), ("b", PVal.obj 6)],
          [("0", PVal.obj 7)]] : List (Store (PVal Nat))) 1 + 0))
      = (((cursorList ((([[("1", PVal.obj 5), ("b", PVal.obj 6)],
          [("0", PVal.obj 7)]] : List (Store (PVal Nat)))).getD 1 [])).filter
          (fun e => pyIntParses e.1)).get? 0).map (·.2) :=
  ⟨by decide, by decide,
   C2_merge_renumbering _ 1 0 (by decide) (by decide)⟩

/-- C5 counterexample: the key `"-1"` is not a base-10 non-negative
integer, yet Python's `int()` accepts it, so the merge renumbers it as a
positional record (it lands at position `"0"` and is not copied through
under its own key); and the non-integer key `"length"` is not copied
through unchanged either — its shard value 5 is overwritten with the
corrected total 1. -/
theorem C5_counterexample :
    isNonNegIntKey "-1" = false
    ∧ pyIntParses "-1" = true
    ∧ getS (merge_lmdbs [[("-1", PVal.obj (7 : Nat)),
        ("length", PVal.num 5)]]) "0" = some (PVal.obj 7)
    ∧ getS (merge_lmdbs [[("-1", PVal.obj (7 : Nat)),
        ("length", PVal.num 5)]]) "-1" = none
    ∧ getS (merge_lmdbs [[("-1", PVal.obj (7 : Nat)),
        ("length", PVal.num 5)]]) "length" = some (PVal.num 1) := by
  refine ⟨by decide, by decide, by decide, by decide, by decide⟩

/-- C5 (amended): a key is treated as a positional record iff CPython's
`int()` accepts it (optional surrounding whitespace, optional sign,
digits with single underscores); every other key except `"length"` is
copied through unchanged (last shard wins), while `"length"` is rewritten
to the total; and every `int()`-accepted key present in the merged store
is the canonical decimal of a position below the total. -/
theorem C5_key_classification {α : Type} (dbs : List (Store (PVal α)))
    (k : String) :
    (pyIntParses k = false → k ≠ "length" →
      getS (merge_lmdbs dbs) k
        = dbs.foldl (fun a db => lastWrite k a (cursorList db)) none)
    ∧ (pyIntParses k = true → k ∈ keysS (merge_lmdbs dbs) →
      k = natToStr (parseFrom 0 k.data)
        ∧ parseFrom 0 k.data < mergeTotal dbs) := by
  constructor
  · intro hpy hne
    rw [show merge_lmdbs dbs = putS (mergePass dbs).1 "length"
          (PVal.num (mergePass dbs).2) from rfl]
    rw [getS_putS_other _ _ _ _ hne]
    rw [mergePass_eq_mergeFrom]
    exact getS_mergeFrom_meta dbs [] 0 k hpy
  · intro hpy hmem
    obtain ⟨p, hp, hkp⟩ := merge_lmdbs_posKey_shape dbs k hpy hmem
    constructor
    · rw [hkp]
      rw [show (natToStr p).data = (natToStr p).data from rfl]
      rw [parseFrom_natToStr]
    · rw [hkp, parseFrom_natToStr]
      exact hp

/-- Witness for the amended C5: a metadata key is copied through with its
shard value. -/
theorem C5_key_classification_witness :
    (pyIntParses "dtype" = false → "dtype" ≠ "length" →
      getS (merge_lmdbs ([[("dtype", PVal.obj 3)], [("7", PVal.obj 4)]]
          : List (Store (PVal Nat)))) "dtype"
        = ([[("dtype", PVal.obj 3)], [("7", PVal.obj 4)]]
            : List (Store (PVal Nat))).foldl
            (fun a db => lastWrite "dtype" a (cursorList db)) none)
    ∧ (pyIntParses "dtype" = true →
      "dtype" ∈ keysS (merge_lmdbs ([[("dtype", PVal.obj 3)],
          [("7", PVal.obj 4)]] : List (Store (PVal Nat)))) →
      "dtype" = natToStr (parseFrom 0 ("dtype" : String).data)
        ∧ parseFrom 0 ("dtype" : String).data
          < mergeTotal ([[("dtype", PVal.obj 3)], [("7", PVal.obj 4)]]
              : List (Store (PVal Nat)))) :=
  C5_key_classification _ "dtype"

theorem shardStart_succ (L n i : Nat) :
    shardStart L n (i + 1) = shardStart L n i + shardSize L n i := by
  rw [shardStart, shardStart, shardSize]
  rcases Nat.lt_or_ge i (L % n) with h | h
  · rw [if_pos h, Nat.min_eq_left (by omega), Nat.min_eq_left (by omega)]
    ring_nf
  · rw [if_neg (by omega), Nat.min_eq_right (by omega),
        Nat.min_eq_right (by omega)]
    ring_nf

theorem shardStart_zero (L n : Nat) : shardStart L n 0 = 0 := by
  rw [shardStart]
  simp

theorem shardStart_top (L n : Nat) (hn : 1 ≤ n) : shardStart L n n = L := by
  rw [shardStart, Nat.min_eq_right (le_of_lt (Nat.mod_lt L hn))]
  exact Nat.div_add_mod L n

theorem shardStart_mono (L n : Nat) :
    ∀ a b, a ≤ b → shardStart L n a ≤ shardStart L n b := by
  intro a b hab
  induction b with
  | zero => rw [Nat.le_zero.mp hab]
  | succ b2 ihb =>
    rcases Nat.lt_or_ge a (b2 + 1) with h2 | h2
    · have := ihb (by omega)
      rw [shardStart_succ]
      omega
    · rw [show a = b2 + 1 from by omega]

theorem flatten_arraySplit_aux (L n : Nat) :
    ∀ m k, ((List.range' k m).map (availableIndices L n)).flatten
      = List.range' (shardStart L n k)
          (shardStart L n (k + m) - shardStart L n k) := by
  intro m
  induction m with
  | zero => intro k; simp
  | succ m2 ih =>
    intro k
    rw [show k + (m2 + 1) = k + 1 + m2 from by omega]
    rw [List.range'_succ, List.map_cons, List.flatten_cons, ih (k + 1)]
    rw [availableIndices]
    have h1 := shardStart_succ L n k
    have h2 : shardStart L n k + shardSize L n k ≤
        shardStart L n (k + 1 + m2) := by
      rw [← h1]
      exact shardStart_mono L n (k + 1) (k + 1 + m2) (by omega)
    have h3 := List.range'_append (shardStart L n k) (shardSize L n k)
      (shardStart L n (k + 1 + m2) - shardStart L n (k + 1)) 1
    rw [show shardStart L n k + 1 * shardSize L n k
          = shardStart L n (k + 1) from by rw [h1]; ring] at h3
    rw [h3]
    congr 1
    omega

/-- The `np.array_split` chunks concatenate, in order, to exactly
`range(L)`: each global index is visible in exactly one shard, with no
gap and no overlap. -/
theorem flatten_arraySplit (L n : Nat) (hn : 1 ≤ n) :
    (arraySplit L n).flatten = List.range L := by
  rw [arraySplit]
  rw [show List.range n = List.range' 0 n from List.range_eq_range' n]
  rw [flatten_arraySplit_aux L n n 0]
  have htop : shardStart L n (0 + n) = L := by
    rw [Nat.zero_add]
    exact shardStart_top L n hn
  rw [htop, shardStart_zero, List.range_eq_range']
  congr 1

/-- C7: for any store length `L` and `total_shards = n ≥ 1`, the per-shard
visible ranges computed at open time are pairwise disjoint with union
exactly `[0, L)` (their in-order concatenation is `range L`), any two
shards' sizes differ by at most 1, and a sharded reader's `__getitem__`
at visible index `j` fetches the record keyed by global position
`shardStart + j` of its own range. -/
theorem C7_sharded_reader {α : Type} (store : Store (PVal α))
    (L n i i2 j : Nat) (hn : 1 ≤ n) (hi : i < n) (hi2 : i2 < n)
    (hj : j < shardSize L n i) :
    (arraySplit L n).flatten = List.range L
    ∧ shardSize L n i ≤ shardSize L n i2 + 1
    ∧ lmdbGetItem store L n i j
      = getS store (natToStr (shardStart L n i + j)) := by
  refine ⟨flatten_arraySplit L n hn, ?_, ?_⟩
  · rw [shardSize, shardSize]
    rcases Nat.lt_or_ge i (L % n) with h | h
    · rw [if_pos h]
      rcases Nat.lt_or_ge i2 (L % n) with h2 | h2
      · rw [if_pos h2]
        omega
      · rw [if_neg (by omega)]
    · rw [if_neg (by omega)]
      omega
  · rw [lmdbGetItem, availableIndices]
    rw [List.getD_eq_getElem?_getD, List.getElem?_range' (shardStart L n i) 1 hj]
    simp

/-- Witness for C7 with `L = 5`, three shards, reading shard 1. -/
theorem C7_sharded_reader_witness :
    1 ≤ 3 ∧ 1 < 3 ∧ 2 < 3 ∧ 0 < shardSize 5 3 1
    ∧ ((arraySplit 5 3).flatten = List.range 5
      ∧ shardSize 5 3 1 ≤ shardSize 5 3 2 + 1
      ∧ lmdbGetItem ([("2", PVal.obj 9)] : Store (PVal Nat)) 5 3 1 0
        = getS ([("2", PVal.obj 9)] : Store (PVal Nat))
            (natToStr (shardStart 5 3 1 + 0))) :=
  ⟨by decide, by decide, by decide, by decide,
   C7_sharded_reader _ 5 3 1 2 0 (by decide) (by decide) (by decide)
     (by decide)⟩

theorem descale_scaleIntensive (xs : List ℚ) (mean std : ℚ)
    (hstd : std ≠ 0) :
    descale (scaleIntensive xs mean std) (repeatLike std xs)
      (repeatLike mean xs) = xs := by
  induction xs with
  | nil => rfl
  | cons x rest ih =>
    rw [show scaleIntensive (x :: rest) mean std
          = ((x - mean) / std) :: scaleIntensive rest mean std from rfl]
    rw [show repeatLike std (x :: rest) = std :: repeatLike std rest from rfl]
    rw [show repeatLike mean (x :: rest) = mean :: repeatLike mean rest from
          rfl]
    rw [show descale (((x - mean) / std) :: scaleIntensive rest mean std)
          (std :: repeatLike std rest) (mean :: repeatLike mean rest)
          = ((x - mean) / std * std + mean)
            :: descale (scaleIntensive rest mean std)
              (repeatLike std rest) (repeatLike mean rest) from rfl]
    rw [ih, div_mul_cancel₀ _ hstd]
    ring_nf

theorem descale_scaleExtensive (xs : List ℚ) :
    ∀ natoms : List ℚ, natoms.length = xs.length →
      natoms.all (fun a => !(a == 0)) = true →
      descale (scaleExtensive xs natoms) natoms (zerosLike natoms) = xs := by
  induction xs with
  | nil =>
    intro natoms hlen _
    rw [List.length_nil, List.length_eq_zero] at hlen
    rw [hlen]
    rfl
  | cons x rest ih =>
    intro natoms hlen hnz
    cases natoms with
    | nil => simp at hlen
    | cons a as =>
      rw [List.all_cons, Bool.and_eq_true] at hnz
      have ha : a ≠ 0 := by
        have := hnz.1
        simpa using this
      rw [show scaleExtensive (x :: rest) (a :: as)
            = (x / a) :: scaleExtensive rest as from rfl]
      rw [show zerosLike (a :: as) = 0 :: zerosLike as from rfl]
      rw [show descale ((x / a) :: scaleExtensive rest as) (a :: as)
            (0 :: zerosLike as)
            = (x / a * a + 0)
              :: descale (scaleExtensive rest as) as (zerosLike as) from rfl]
      rw [ih as (by simpa using hlen) hnz.2]
      rw [div_mul_cancel₀ _ ha, add_zero]

/-- C6: de-scaling with the recorded state recovers the original labels
exactly, for both policies: intensive `(x - mean)/std` reversed by
`x' * std + mean`, and extensive `x / natoms` whose recorded state
`mean = 0, std = natoms` makes the same reversal formula recover `x`. -/
theorem C6_scaling_roundtrip (xs natoms : List ℚ) (mean std : ℚ)
    (hstd : std ≠ 0) (hlen : natoms.length = xs.length)
    (hnz : natoms.all (fun a => !(a == 0)) = true) :
    descale (scaleIntensive xs mean std) (repeatLike std xs)
        (repeatLike mean xs) = xs
    ∧ descale (scaleExtensive xs natoms) natoms (zerosLike natoms) = xs :=
  ⟨descale_scaleIntensive xs mean std hstd,
   descale_scaleExtensive xs natoms hlen hnz⟩

/-- Witness for C6 at a concrete two-sample label column. -/
theorem C6_scaling_roundtrip_witness :
    ((3 : ℚ) ≠ 0) ∧ (([2, 4] : List ℚ).length = ([5, 9] : List ℚ).length)
    ∧ (([2, 4] : List ℚ).all (fun a => !(a == 0)) = true)
    ∧ (descale (scaleIntensive [5, 9] 7 3) (repeatLike 3 [5, 9])
          (repeatLike 7 [5, 9]) = [5, 9]
      ∧ descale (scaleExtensive [5, 9] [2, 4]) [2, 4]
          (zerosLike [2, 4]) = [5, 9]) :=
  ⟨by norm_num, by decide, by decide,
   C6_scaling_roundtrip [5, 9] [2, 4] 7 3 (by norm_num) (by decide)
     (by decide)⟩

/-- C8: with a supplied state whose four scaler fields are present, the
supplied means/stds are used verbatim — the result is the supplied pair
for every possible computed statistic, so nothing is recomputed — and
with any required field absent the selection stops with the
corresponding corrupted-state error. -/
theorem C8_scaler_state {β : Type} (st bad : ScalerState β)
    (computedF : β × β) (computeMean computeStd : List β → β)
    (values : List β) (fm fs lm ls : β)
    (hfm : st.featureScalerMean = some fm)
    (hfs : st.featureScalerStd = some fs)
    (hlm : st.labelScalerMean = some lm)
    (hls : st.labelScalerStd = some ls) :
    featureScalerSelect (some st) computedF = Except.ok (fm, fs)
    ∧ labelScalerSelect (some st) computeMean computeStd values
      = Except.ok (lm, ls)
    ∧ (bad.featureScalerMean = none →
      featureScalerSelect (some bad) computedF
        = Except.error
            "Corrupted state_dict file, feature_scaler_mean not found")
    ∧ (bad.labelScalerStd = none → bad.labelScalerMean = some lm →
      labelScalerSelect (some bad) computeMean computeStd values
        = Except.error
            "Corrupted state_dict file, label_scaler_std not found")
    ∧ featureScalerSelect none computedF = Except.ok computedF := by
  refine ⟨?_, ?_, ?_, ?_, rfl⟩
  · rw [featureScalerSelect, hfm, hfs]
  · rw [labelScalerSelect, hlm, hls]
  · intro hnone
    rw [featureScalerSelect, hnone]
  · intro hnone hmean
    rw [labelScalerSelect, hmean, hnone]

/-- Witness for C8 over `β = Nat` with a complete and a corrupted state. -/
theorem C8_scaler_state_witness :
    (ScalerState.featureScalerMean ⟨some 1, some 2, some 3, some 4⟩
        = some (1 : Nat))
    ∧ (ScalerState.featureScalerStd ⟨some 1, some 2, some 3, some 4⟩
        = some (2 : Nat))
    ∧ (ScalerState.labelScalerMean ⟨some 1, some 2, some 3, some 4⟩
        = some (3 : Nat))
    ∧ (ScalerState.labelScalerStd ⟨some 1, some 2, some 3, some 4⟩
        = some (4 : Nat))
    ∧ (featureScalerSelect (some ⟨some 1, some 2, some 3, some 4⟩) (9, 9)
        = Except.ok ((1 : Nat), (2 : Nat))
      ∧ labelScalerSelect (some ⟨some 1, some 2, some 3, some 4⟩)
          (fun _ => 9) (fun _ => 9) [5]
        = Except.ok ((3 : Nat), (4 : Nat))
      ∧ ((ScalerState.featureScalerMean
            (⟨none, some 2, some 3, none⟩ : ScalerState Nat) = none) →
        featureScalerSelect (some ⟨none, some 2, some 3, none⟩) (9, 9)
          = Except.error
              "Corrupted state_dict file, feature_scaler_mean not found")
      ∧ ((ScalerState.labelScalerStd
            (⟨none, some 2, some 3, none⟩ : ScalerState Nat) = none) →
        (ScalerState.labelScalerMean
            (⟨none, some 2, some 3, none⟩ : ScalerState Nat) = some 3) →
        labelScalerSelect (some ⟨none, some 2, some 3, none⟩)
            (fun _ => 9) (fun _ => 9) [5]
          = Except.error
              "Corrupted state_dict file, label_scaler_std not found")
      ∧ featureScalerSelect (none : Option (ScalerState Nat)) (9, 9)
        = Except.ok (9, 9)) :=
  ⟨rfl, rfl, rfl, rfl,
   C8_scaler_state ⟨some 1, some 2, some 3, some 4⟩
     ⟨none, some 2, some 3, none⟩ (9, 9) (fun _ => 9) (fun _ => 9) [5]
     1 2 3 4 rfl rfl rfl rfl⟩

theorem loadReactions_failed {G : Type} (graphs : List (Option G))
    (raw : List RawRxn) :
    ∀ acc, (raw.foldl (loadStep graphs) acc).failed
      = acc.failed ++ raw.map (rxnFailedFlag graphs) := by
  induction raw with
  | nil => intro acc; simp
  | cons lb rest ih =>
    intro acc
    rw [List.foldl_cons, ih, List.map_cons]
    cases hflag : rxnFailedFlag graphs lb
    · rw [show loadStep graphs acc lb
            = { failed := acc.failed ++ [false],
                reactions := acc.reactions ++ [lb],
                labelIds := acc.labelIds ++ [lb.rid] } from by
            rw [loadStep, hflag]
            rfl]
      simp
    · rw [show loadStep graphs acc lb
            = { acc with failed := acc.failed ++ [true] } from by
            rw [loadStep, hflag]
            rfl]
      simp

theorem loadReactions_accepted {G : Type} (graphs : List (Option G))
    (raw : List RawRxn) :
    ∀ acc, (raw.foldl (loadStep graphs) acc).reactions
        = acc.reactions ++ raw.filter (fun lb => !rxnFailedFlag graphs lb)
      ∧ (raw.foldl (loadStep graphs) acc).labelIds
        = acc.labelIds
          ++ (raw.filter (fun lb => !rxnFailedFlag graphs lb)).map (·.rid) := by
  induction raw with
  | nil => intro acc; simp
  | cons lb rest ih =>
    intro acc
    rw [List.foldl_cons]
    cases hflag : rxnFailedFlag graphs lb
    · rw [show loadStep graphs acc lb
            = { failed := acc.failed ++ [false],
                reactions := acc.reactions ++ [lb],
                labelIds := acc.labelIds ++ [lb.rid] } from by
            rw [loadStep, hflag]
            rfl]
      rw [show (lb :: rest).filter (fun lb => !rxnFailedFlag graphs lb)
            = lb :: rest.filter (fun lb => !rxnFailedFlag graphs lb) from by
            simp [List.filter_cons, hflag]]
      constructor
      · rw [(ih _).1]
        simp
      · rw [(ih _).2]
        simp
    · rw [show loadStep graphs acc lb
            = { acc with failed := acc.failed ++ [true] } from by
            rw [loadStep, hflag]
            rfl]
      rw [show (lb :: rest).filter (fun lb => !rxnFailedFlag graphs lb)
            = rest.filter (fun lb => !rxnFailedFlag graphs lb) from by
            simp [List.filter_cons, hflag]]
      exact ih _

theorem contains_graphsNotNoneIndices {G : Type} (graphs : List (Option G))
    (d : Nat) :
    (graphsNotNoneIndices graphs).contains d
      = (graphs.getD d none).isSome := by
  rcases Nat.lt_or_ge d graphs.length with hd | hd
  · cases hsome : (graphs.getD d none).isSome
    · have hnmem : d ∉ graphsNotNoneIndices graphs := by
        intro hmem
        rw [graphsNotNoneIndices, List.mem_filter] at hmem
        rw [hmem.2] at hsome
        cases hsome
      simp [hnmem]
    · have hmem : d ∈ graphsNotNoneIndices graphs := by
        rw [graphsNotNoneIndices, List.mem_filter]
        exact ⟨List.mem_range.mpr hd, hsome⟩
      simp [hmem]
  · have hnone : graphs.getD d none = none := List.getD_eq_default _ _ hd
    have hnmem : d ∉ graphsNotNoneIndices graphs := by
      intro hmem
      rw [graphsNotNoneIndices, List.mem_filter, List.mem_range] at hmem
      omega
    rw [hnone]
    simp [hnmem]

/-- C4: the `failed` sequence has exactly one entry per raw record, in
raw order; entry `i` is true iff record `i` references a molecule index
whose graph is missing or None; and the number of accepted reactions and
of labels both equal the number of false entries. -/
theorem C4_failed_alignment {G : Type} (graphs : List (Option G))
    (raw : List RawRxn) (d0 : RawRxn) (i : Nat) (hi : i < raw.length) :
    (loadReactions graphs raw).failed.length = raw.length
    ∧ (loadReactions graphs raw).failed.getD i false
      = ((raw.getD i d0).reactants ++ (raw.getD i d0).products).any
          (fun d => !(graphs.getD d none).isSome)
    ∧ (loadReactions graphs raw).reactions.length
      = (loadReactions graphs raw).failed.countP (fun b => b == false)
    ∧ (loadReactions graphs raw).labelIds.length
      = (loadReactions graphs raw).reactions.length := by
  have hfailed : (loadReactions graphs raw).failed
      = raw.map (rxnFailedFlag graphs) := by
    rw [loadReactions, loadReactions_failed graphs raw ⟨[], [], []⟩]
    rfl
  have hacc := loadReactions_accepted graphs raw ⟨[], [], []⟩
  have hreact : (loadReactions graphs raw).reactions
      = raw.filter (fun lb => !rxnFailedFlag graphs lb) := by
    rw [loadReactions, hacc.1]
    rfl
  have hlab : (loadReactions graphs raw).labelIds
      = (raw.filter (fun lb => !rxnFailedFlag graphs lb)).map (·.rid) := by
    rw [loadReactions, hacc.2]
    rfl
  refine ⟨?_, ?_, ?_, ?_⟩
  · rw [hfailed, List.length_map]
  · rw [hfailed, List.getD_eq_getElem?_getD, List.getElem?_map]
    rw [List.getElem?_eq_getElem hi]
    rw [show raw.getD i d0 = raw.get ⟨i, hi⟩ from by
          rw [List.getD_eq_getElem?_getD, List.getElem?_eq_getElem hi]
          rfl]
    rw [show (Option.map (rxnFailedFlag graphs) (some raw[i])).getD false
          = rxnFailedFlag graphs raw[i] from rfl]
    rw [rxnFailedFlag]
    congr 1
    funext d
    rw [contains_graphsNotNoneIndices]
  · rw [hfailed, hreact, List.countP_map]
    rw [List.countP_eq_length_filter]
    congr 1
    refine List.filter_congr (fun lb _ => ?_)
    rw [show ((fun b => b == false) ∘ rxnFailedFlag graphs) lb
          = (rxnFailedFlag graphs lb == false) from rfl]
    cases rxnFailedFlag graphs lb <;> rfl
  · rw [hlab, hreact, List.length_map]

/-- Witness for C4: 10 raw records over graphs `[some 0, none]`; record 4
references molecule 1 whose graph is None. -/
theorem C4_failed_alignment_witness :
    4 < ([⟨[0], [], "a"⟩, ⟨[0], [], "b"⟩, ⟨[0], [], "c"⟩, ⟨[0], [], "d"⟩,
          ⟨[1], [], "e"⟩, ⟨[0], [], "f"⟩, ⟨[0], [], "g"⟩, ⟨[0], [], "h"⟩,
          ⟨[0], [], "i"⟩, ⟨[0], [], "j"⟩] : List RawRxn).length
    ∧ ((loadReactions [some 0, none]
          [⟨[0], [], "a"⟩, ⟨[0], [], "b"⟩, ⟨[0], [], "c"⟩, ⟨[0], [], "d"⟩,
           ⟨[1], [], "e"⟩, ⟨[0], [], "f"⟩, ⟨[0], [], "g"⟩, ⟨[0], [], "h"⟩,
           ⟨[0], [], "i"⟩, ⟨[0], [], "j"⟩]).failed.length = 10
      ∧ (loadReactions [some 0, none]
          [⟨[0], [], "a"⟩, ⟨[0], [], "b"⟩, ⟨[0], [], "c"⟩, ⟨[0], [], "d"⟩,
           ⟨[1], [], "e"⟩, ⟨[0], [], "f"⟩, ⟨[0], [], "g"⟩, ⟨[0], [], "h"⟩,
           ⟨[0], [], "i"⟩, ⟨[0], [], "j"⟩]).failed.getD 4 false
        = ((([⟨[0], [], "a"⟩, ⟨[0], [], "b"⟩, ⟨[0], [], "c"⟩, ⟨[0], [], "d"⟩,
              ⟨[1], [], "e"⟩, ⟨[0], [], "f"⟩, ⟨[0], [], "g"⟩, ⟨[0], [], "h"⟩,
              ⟨[0], [], "i"⟩, ⟨[0], [], "j"⟩] : List RawRxn).getD 4
              ⟨[], [], ""⟩).reactants
            ++ (([⟨[0], [], "a"⟩, ⟨[0], [], "b"⟩, ⟨[0], [], "c"⟩,
                  ⟨[0], [], "d"⟩, ⟨[1], [], "e"⟩, ⟨[0], [], "f"⟩,
                  ⟨[0], [], "g"⟩, ⟨[0], [], "h"⟩, ⟨[0], [], "i"⟩,
                  ⟨[0], [], "j"⟩] : List RawRxn).getD 4
                ⟨[], [], ""⟩).products).any
            (fun d => !(([some 0, none] : List (Option Nat)).getD d
                none).isSome)
      ∧ (loadReactions [some 0, none]
          [⟨[0], [], "a"⟩, ⟨[0], [], "b"⟩, ⟨[0], [], "c"⟩, ⟨[0], [], "d"⟩,
           ⟨[1], [], "e"⟩, ⟨[0], [], "f"⟩, ⟨[0], [], "g"⟩, ⟨[0], [], "h"⟩,
           ⟨[0], [], "i"⟩, ⟨[0], [], "j"⟩]).reactions.length
        = (loadReactions [some 0, none]
          [⟨[0], [], "a"⟩, ⟨[0], [], "b"⟩, ⟨[0], [], "c"⟩, ⟨[0], [], "d"⟩,
           ⟨[1], [], "e"⟩, ⟨[0], [], "f"⟩, ⟨[0], [], "g"⟩, ⟨[0], [], "h"⟩,
           ⟨[0], [], "i"⟩, ⟨[0], [], "j"⟩]).failed.countP
            (fun b => b == false)
      ∧ (loadReactions [some 0, none]
          [⟨[0], [], "a"⟩, ⟨[0], [], "b"⟩, ⟨[0], [], "c"⟩, ⟨[0], [], "d"⟩,
           ⟨[1], [], "e"⟩, ⟨[0], [], "f"⟩, ⟨[0], [], "g"⟩, ⟨[0], [], "h"⟩,
           ⟨[0], [], "i"⟩, ⟨[0], [], "j"⟩]).labelIds.length
        = (loadReactions [some 0, none]
          [⟨[0], [], "a"⟩, ⟨[0], [], "b"⟩, ⟨[0], [], "c"⟩, ⟨[0], [], "d"⟩,
           ⟨[1], [], "e"⟩, ⟨[0], [], "f"⟩, ⟨[0], [], "g"⟩, ⟨[0], [], "h"⟩,
           ⟨[0], [], "i"⟩, ⟨[0], [], "j"⟩]).reactions.length) :=
  ⟨by decide,
   C4_failed_alignment [some 0, none]
     [⟨[0], [], "a"⟩, ⟨[0], [], "b"⟩, ⟨[0], [], "c"⟩, ⟨[0], [], "d"⟩,
      ⟨[1], [], "e"⟩, ⟨[0], [], "f"⟩, ⟨[0], [], "g"⟩, ⟨[0], [], "h"⟩,
      ⟨[0], [], "i"⟩, ⟨[0], [], "j"⟩] ⟨[], [], ""⟩ 4 (by decide)⟩

theorem build_reaction_graphs_lengths {G : Type}
    (crg : List (Option G) → List (Option G) → RxnInNetwork → List Bool →
      List Bool → RGraph × List (String × Nat))
    (graphs : List (Option G)) (reactions : List RxnInNetwork) :
    (build_reaction_graphs crg graphs reactions).1.length
      = reactions.length
    ∧ (build_reaction_graphs crg graphs reactions).2.1.length
      = reactions.length := by
  constructor <;> simp [build_reaction_graphs]

theorem processRxn_warns_of_mismatch {G : Type}
    (crg : List (Option G) → List (Option G) → RxnInNetwork → List Bool →
      List Bool → RGraph × List (String × Nat))
    (graphs : List (Option G)) (rxn : RxnInNetwork)
    (hm : mappingMismatch rxn = true) :
    (processRxn crg graphs rxn).2.2 = [RxnWarn.unequalMappingGraphLen] := by
  rw [processRxn]
  simp only
  rw [if_pos ?_]
  rw [mappingMismatch] at hm
  simpa using hm

/-- C1 counterexample: a reaction with a participant/mapping count
mismatch is not rejected — `build_reaction_graphs` still returns one
built graph for it — and the only diagnostic is the fixed string
"unequal mapping & graph len", which does not record the reaction id. -/
theorem C1_counterexample :
    mappingMismatch rxnMismatch = true
    ∧ (build_reaction_graphs crgConst [] [rxnMismatch]).1.length = 1
    ∧ (build_reaction_graphs crgConst [] [rxnMismatch]).2.2
      = [RxnWarn.unequalMappingGraphLen] := by
  refine ⟨by decide, by decide, by decide⟩

/-- C1 (amended): a structural mapping mismatch is only reported — a
warning without the reaction's identifier is printed — while the
reaction is still built and included: the output has exactly one
reaction graph and one feature table per input reaction, mismatch or
not, and the pipeline continues. -/
theorem C1_mapping_error_reported_not_rejected {G : Type}
    (crg : List (Option G) → List (Option G) → RxnInNetwork → List Bool →
      List Bool → RGraph × List (String × Nat))
    (graphs : List (Option G)) (reactions : List RxnInNetwork)
    (d0 : RxnInNetwork) (j : Nat) (hj : j < reactions.length)
    (hm : mappingMismatch (reactions.getD j d0) = true) :
    (build_reaction_graphs crg graphs reactions).1.length
      = reactions.length
    ∧ (build_reaction_graphs crg graphs reactions).2.1.length
      = reactions.length
    ∧ RxnWarn.unequalMappingGraphLen
      ∈ (build_reaction_graphs crg graphs reactions).2.2 := by
  refine ⟨(build_reaction_graphs_lengths crg graphs reactions).1,
          (build_reaction_graphs_lengths crg graphs reactions).2, ?_⟩
  have hget : reactions.getD j d0 = reactions.get ⟨j, hj⟩ := by
    rw [List.getD_eq_getElem?_getD, List.getElem?_eq_getElem hj]
    rfl
  have hmem1 : processRxn crg graphs (reactions.get ⟨j, hj⟩)
      ∈ reactions.map (processRxn crg graphs) :=
    List.mem_map.mpr ⟨reactions.get ⟨j, hj⟩, List.get_mem _ _ _, rfl⟩
  have hmem2 : (processRxn crg graphs (reactions.get ⟨j, hj⟩)).2.2
      ∈ (reactions.map (processRxn crg graphs)).map (·.2.2) :=
    List.mem_map.mpr ⟨_, hmem1, rfl⟩
  have hwarn : (processRxn crg graphs (reactions.get ⟨j, hj⟩)).2.2
      = [RxnWarn.unequalMappingGraphLen] :=
    processRxn_warns_of_mismatch crg graphs _ (hget ▸ hm)
  rw [build_reaction_graphs]
  simp only
  refine List.mem_append.mpr (Or.inl ?_)
  rw [List.mem_flatten]
  refine ⟨(processRxn crg graphs (reactions.get ⟨j, hj⟩)).2.2, hmem2, ?_⟩
  rw [hwarn]
  exact List.mem_singleton.mpr rfl

/-- Witness for the amended C1 at the concrete mismatching record. -/
theorem C1_mapping_error_reported_not_rejected_witness :
    0 < ([rxnMismatch] : List RxnInNetwork).length
    ∧ mappingMismatch (([rxnMismatch] : List RxnInNetwork).getD 0
        rxnMismatch) = true
    ∧ ((build_reaction_graphs crgConst [] [rxnMismatch]).1.length
        = ([rxnMismatch] : List RxnInNetwork).length
      ∧ (build_reaction_graphs crgConst [] [rxnMismatch]).2.1.length
        = ([rxnMismatch] : List RxnInNetwork).length
      ∧ RxnWarn.unequalMappingGraphLen
        ∈ (build_reaction_graphs crgConst [] [rxnMismatch]).2.2) :=
  ⟨by decide, by decide,
   C1_mapping_error_reported_not_rejected crgConst [] [rxnMismatch]
     rxnMismatch 0 (by decide) (by decide)⟩

theorem addToGroups_sound (gs : List (String × List Nat)) (l : String)
    (i : Nat) :
    ∀ k v, (k, v) ∈ addToGroups gs l i → ∀ x ∈ v,
      (∃ v0, (k, v0) ∈ gs ∧ x ∈ v0) ∨ (k = l ∧ x = i) := by
  induction gs with
  | nil =>
    intro k v hmem x hx
    rw [show addToGroups [] l i = [(l, [i])] from rfl] at hmem
    rw [List.mem_singleton] at hmem
    injection hmem with h1 h2
    subst h1
    subst h2
    rw [List.mem_singleton] at hx
    exact Or.inr ⟨rfl, hx⟩
  | cons e rest ih =>
    intro k v hmem x hx
    obtain ⟨k0, v0⟩ := e
    by_cases h0 : k0 = l
    · rw [show addToGroups ((k0, v0) :: rest) l i
            = (k0, v0 ++ [i]) :: rest from by
            simp [addToGroups, h0]] at hmem
      rcases List.mem_cons.mp hmem with h | h
      · injection h with h1 h2
        subst h1
        subst h2
        rcases List.mem_append.mp hx with h2 | h2
        · exact Or.inl ⟨v0, List.mem_cons_self _ _, h2⟩
        · rw [List.mem_singleton] at h2
          exact Or.inr ⟨h0, h2⟩
      · exact Or.inl ⟨v, List.mem_cons_of_mem _ h, hx⟩
    · rw [show addToGroups ((k0, v0) :: rest) l i
            = (k0, v0) :: addToGroups rest l i from by
            simp [addToGroups, h0]] at hmem
      rcases List.mem_cons.mp hmem with h | h
      · injection h with h1 h2
        subst h1
        subst h2
        exact Or.inl ⟨v, List.mem_cons_self _ _, hx⟩
      · rcases ih k v h x hx with h2 | h2
        · obtain ⟨v2, hv2, hxv2⟩ := h2
          exact Or.inl ⟨v2, List.mem_cons_of_mem _ hv2, hxv2⟩
        · exact Or.inr h2

theorem addToGroups_new (gs : List (String × List Nat)) (l : String)
    (i : Nat) :
    ∃ v, (l, v) ∈ addToGroups gs l i ∧ i ∈ v := by
  induction gs with
  | nil => exact ⟨[i], List.mem_singleton.mpr rfl, List.mem_singleton.mpr rfl⟩
  | cons e rest ih =>
    obtain ⟨k0, v0⟩ := e
    by_cases h0 : k0 = l
    · subst h0
      refine ⟨v0 ++ [i], ?_, List.mem_append.mpr (Or.inr (by simp))⟩
      rw [show addToGroups ((k0, v0) :: rest) k0 i
            = (k0, v0 ++ [i]) :: rest from by simp [addToGroups]]
      exact List.mem_cons_self _ _
    · obtain ⟨v, hv, hi⟩ := ih
      refine ⟨v, ?_, hi⟩
      rw [show addToGroups ((k0, v0) :: rest) l i
            = (k0, v0) :: addToGroups rest l i from by
            simp [addToGroups, h0]]
      exact List.mem_cons_of_mem _ hv

theorem addToGroups_preserve (gs : List (String × List Nat)) (l : String)
    (i : Nat) :
    ∀ k v, (k, v) ∈ gs →
      ∃ v2, (k, v2) ∈ addToGroups gs l i ∧ ∀ x ∈ v, x ∈ v2 := by
  induction gs with
  | nil => intro k v hmem; cases hmem
  | cons e rest ih =>
    intro k v hmem
    obtain ⟨k0, v0⟩ := e
    by_cases h0 : k0 = l
    · rw [show addToGroups ((k0, v0) :: rest) l i
            = (k0, v0 ++ [i]) :: rest from by simp [addToGroups, h0]]
      rcases List.mem_cons.mp hmem with h | h
      · injection h with h1 h2
        subst h1
        subst h2
        exact ⟨v ++ [i], List.mem_cons_self _ _,
               fun x hx => List.mem_append.mpr (Or.inl hx)⟩
      · exact ⟨v, List.mem_cons_of_mem _ h, fun x hx => hx⟩
    · rw [show addToGroups ((k0, v0) :: rest) l i
            = (k0, v0) :: addToGroups rest l i from by
            simp [addToGroups, h0]]
      rcases List.mem_cons.mp hmem with h | h
      · injection h with h1 h2
        subst h1
        subst h2
        exact ⟨v, List.mem_cons_self _ _, fun x hx => hx⟩
      · obtain ⟨v2, hv2, hsub⟩ := ih k v h
        exact ⟨v2, List.mem_cons_of_mem _ hv2, hsub⟩

theorem addToGroups_keys (gs : List (String × List Nat)) (l : String)
    (i : Nat) (k : String) :
    k ∈ (addToGroups gs l i).map (·.1) ↔ k ∈ gs.map (·.1) ∨ k = l := by
  induction gs with
  | nil => simp [addToGroups]
  | cons e rest ih =>
    obtain ⟨k0, v0⟩ := e
    by_cases h0 : k0 = l
    · rw [show addToGroups ((k0, v0) :: rest) l i
            = (k0, v0 ++ [i]) :: rest from by simp [addToGroups, h0]]
      subst h0
      simp only [List.map_cons, List.mem_cons]
      tauto
    · rw [show addToGroups ((k0, v0) :: rest) l i
            = (k0, v0) :: addToGroups rest l i from by
            simp [addToGroups, h0]]
      simp only [List.map_cons, List.mem_cons]
      rw [ih]
      tauto

theorem addToGroups_nodup (gs : List (String × List Nat)) (l : String)
    (i : Nat) (h : (gs.map (·.1)).Nodup) :
    ((addToGroups gs l i).map (·.1)).Nodup := by
  induction gs with
  | nil => simp [addToGroups]
  | cons e rest ih =>
    obtain ⟨k0, v0⟩ := e
    simp only [List.map_cons, List.nodup_cons] at h
    by_cases h0 : k0 = l
    · rw [show addToGroups ((k0, v0) :: rest) l i
            = (k0, v0 ++ [i]) :: rest from by simp [addToGroups, h0]]
      simp only [List.map_cons, List.nodup_cons]
      exact h
    · rw [show addToGroups ((k0, v0) :: rest) l i
            = (k0, v0) :: addToGroups rest l i from by
            simp [addToGroups, h0]]
      simp only [List.map_cons, List.nodup_cons]
      refine ⟨?_, ih h.2⟩
      intro hmem
      rcases (addToGroups_keys rest l i k0).mp hmem with h2 | h2
      · exact h.1 h2
      · exact h0 h2

theorem groupsFold_sound (labels : List String) (ps : List (Nat × String))
    (hcons : ∀ e ∈ ps, labels.get? e.1 = some e.2) :
    ∀ acc, (∀ k v, (k, v) ∈ acc → ∀ x ∈ v, labels.get? x = some k) →
      ∀ k v,
        (k, v) ∈ ps.foldl (fun gs e => addToGroups gs e.2 e.1) acc →
        ∀ x ∈ v, labels.get? x = some k := by
  induction ps with
  | nil => intro acc hacc k v hmem x hx; exact hacc k v hmem x hx
  | cons e rest ih =>
    intro acc hacc k v hmem x hx
    rw [List.foldl_cons] at hmem
    refine ih (fun e2 he2 => hcons e2 (List.mem_cons_of_mem _ he2))
      (addToGroups acc e.2 e.1) ?_ k v hmem x hx
    intro k2 v2 hkv2 x2 hx2
    rcases addToGroups_sound acc e.2 e.1 k2 v2 hkv2 x2 hx2 with h | h
    · obtain ⟨v0, hv0, hxv0⟩ := h
      exact hacc k2 v0 hv0 x2 hxv0
    · rw [h.1, h.2]
      exact hcons e (List.mem_cons_self _ _)

theorem groupsFold_preserve (ps : List (Nat × String)) :
    ∀ acc k v, (k, v) ∈ acc →
      ∃ v2, (k, v2) ∈ ps.foldl (fun gs e => addToGroups gs e.2 e.1) acc
        ∧ ∀ x ∈ v, x ∈ v2 := by
  induction ps with
  | nil => intro acc k v hmem; exact ⟨v, hmem, fun x hx => hx⟩
  | cons e rest ih =>
    intro acc k v hmem
    rw [List.foldl_cons]
    obtain ⟨v1, hv1, hsub1⟩ := addToGroups_preserve acc e.2 e.1 k v hmem
    obtain ⟨v2, hv2, hsub2⟩ := ih (addToGroups acc e.2 e.1) k v1 hv1
    exact ⟨v2, hv2, fun x hx => hsub2 x (hsub1 x hx)⟩

theorem groupsFold_complete (ps : List (Nat × String)) :
    ∀ acc e, e ∈ ps →
      ∃ v, (e.2, v) ∈ ps.foldl (fun gs e => addToGroups gs e.2 e.1) acc
        ∧ e.1 ∈ v := by
  induction ps with
  | nil => intro acc e hmem; cases hmem
  | cons e0 rest ih =>
    intro acc e hmem
    rw [List.foldl_cons]
    rcases List.mem_cons.mp hmem with h | h
    · subst h
      obtain ⟨v, hv, hi⟩ := addToGroups_new acc e.2 e.1
      obtain ⟨v2, hv2, hsub⟩ :=
        groupsFold_preserve rest (addToGroups acc e.2 e.1) e.2 v hv
      exact ⟨v2, hv2, hsub _ hi⟩
    · exact ih (addToGroups acc e0.2 e0.1) e h

theorem groupsFold_nodup (ps : List (Nat × String)) :
    ∀ acc, (acc.map (·.1)).Nodup →
      ((ps.foldl (fun gs e => addToGroups gs e.2 e.1) acc).map
        (·.1)).Nodup := by
  induction ps with
  | nil => intro acc h; exact h
  | cons e rest ih =>
    intro acc h
    rw [List.foldl_cons]
    exact ih _ (addToGroups_nodup acc e.2 e.1 h)

theorem nodupKeys_val_eq (gs : List (String × List Nat))
    (h : (gs.map (·.1)).Nodup) :
    ∀ k v1 v2, (k, v1) ∈ gs → (k, v2) ∈ gs → v1 = v2 := by
  induction gs with
  | nil => intro k v1 v2 h1; cases h1
  | cons e rest ih =>
    intro k v1 v2 h1 h2
    obtain ⟨k0, v0⟩ := e
    simp only [List.map_cons, List.nodup_cons] at h
    rcases List.mem_cons.mp h1 with ha | ha <;>
      rcases List.mem_cons.mp h2 with hb | hb
    · injection ha with ha1 ha2
      injection hb with hb1 hb2
      rw [ha2, hb2]
    · injection ha with ha1 ha2
      subst ha1
      exact absurd (List.mem_map.mpr ⟨(k, v2), hb, rfl⟩) h.1
    · injection hb with hb1 hb2
      subst hb1
      exact absurd (List.mem_map.mpr ⟨(k, v1), ha, rfl⟩) h.1
    · exact ih h.2 k v1 v2 ha hb

theorem groupsAssoc_sound (labels : List String) :
    ∀ k v, (k, v) ∈ groupsAssoc labels → ∀ x ∈ v,
      labels.get? x = some k := by
  refine groupsFold_sound labels labels.enum ?_ [] ?_
  · intro e he
    exact List.mk_mem_enum_iff_get?.mp (by
      obtain ⟨i, l⟩ := e
      exact he)
  · intro k v hmem
    cases hmem

theorem groupsAssoc_complete (labels : List String) (x : Nat) (l : String)
    (hx : labels.get? x = some l) :
    ∃ v, (l, v) ∈ groupsAssoc labels ∧ x ∈ v := by
  have hmem : (x, l) ∈ labels.enum := List.mk_mem_enum_iff_get?.mpr hx
  exact groupsFold_complete labels.enum [] (x, l) hmem

theorem groupsAssoc_nodup (labels : List String) :
    ((groupsAssoc labels).map (·.1)).Nodup :=
  groupsFold_nodup labels.enum [] (by simp)

theorem groupsOf_mem_mono (labels : List String) (x y a : Nat)
    (hxy : labels.get? x = labels.get? y)
    (hmem : x ∈ (groupsOf labels).getD a []) :
    y ∈ (groupsOf labels).getD a [] := by
  rcases Nat.lt_or_ge a (groupsOf labels).length with ha | ha
  · have ha2 : a < (groupsAssoc labels).length := by
      rw [groupsOf, List.length_map] at ha
      exact ha
    have hgetD : (groupsOf labels).getD a []
        = ((groupsAssoc labels).get ⟨a, ha2⟩).2 := by
      rw [groupsOf, List.getD_eq_getElem?_getD, List.getElem?_map,
          List.getElem?_eq_getElem ha2]
      rfl
    rw [hgetD] at hmem ⊢
    have hemem : (groupsAssoc labels).get ⟨a, ha2⟩ ∈ groupsAssoc labels :=
      List.get_mem _ _ _
    have hemem2 : (((groupsAssoc labels).get ⟨a, ha2⟩).1,
        ((groupsAssoc labels).get ⟨a, ha2⟩).2) ∈ groupsAssoc labels := by
      rw [show (((groupsAssoc labels).get ⟨a, ha2⟩).1,
            ((groupsAssoc labels).get ⟨a, ha2⟩).2)
            = (groupsAssoc labels).get ⟨a, ha2⟩ from rfl]
      exact hemem
    have hxl : labels.get? x
        = some ((groupsAssoc labels).get ⟨a, ha2⟩).1 :=
      groupsAssoc_sound labels _ _ hemem2 x hmem
    have hyl : labels.get? y
        = some ((groupsAssoc labels).get ⟨a, ha2⟩).1 := by
      rw [← hxy]
      exact hxl
    obtain ⟨v, hv, hyv⟩ := groupsAssoc_complete labels y _ hyl
    have heq := nodupKeys_val_eq (groupsAssoc labels)
      (groupsAssoc_nodup labels) _ v _ hv hemem2
    rw [← heq]
    exact hyv
  · rw [List.getD_eq_default _ _ ha] at hmem
    cases hmem

theorem groupsOf_cover (labels : List String) (x : Nat)
    (hx : x < labels.length) :
    ∃ a, a < (groupsOf labels).length
      ∧ x ∈ (groupsOf labels).getD a [] := by
  obtain ⟨v, hv, hxv⟩ :=
    groupsAssoc_complete labels x (labels.get ⟨x, hx⟩)
      (List.get?_eq_get hx)
  obtain ⟨n, hn⟩ := List.mem_iff_get.mp hv
  refine ⟨n.val, by rw [groupsOf, List.length_map]; exact n.isLt, ?_⟩
  rw [groupsOf, List.getD_eq_getElem?_getD, List.getElem?_map,
      List.getElem?_eq_getElem n.isLt]
  rw [show (groupsAssoc labels)[n.val] = (groupsAssoc labels).get n from by
        congr]
  rw [hn]
  exact hxv

theorem assignGroups_fold_iff (gs : List (List Nat)) (numTest : Nat)
    (x y : Nat) (hP : ∀ a, x ∈ gs.getD a [] ↔ y ∈ gs.getD a []) :
    ∀ (perm : List Nat) (test tv : List Nat),
      (x ∈ test ↔ y ∈ test) → (x ∈ tv ↔ y ∈ tv) →
      ((x ∈ (perm.foldl (fun acc i =>
          if acc.1.length < numTest then (acc.1 ++ gs.getD i [], acc.2)
          else (acc.1, acc.2 ++ gs.getD i [])) (test, tv)).1
        ↔ y ∈ (perm.foldl (fun acc i =>
          if acc.1.length < numTest then (acc.1 ++ gs.getD i [], acc.2)
          else (acc.1, acc.2 ++ gs.getD i [])) (test, tv)).1)
      ∧ (x ∈ (perm.foldl (fun acc i =>
          if acc.1.length < numTest then (acc.1 ++ gs.getD i [], acc.2)
          else (acc.1, acc.2 ++ gs.getD i [])) (test, tv)).2
        ↔ y ∈ (perm.foldl (fun acc i =>
          if acc.1.length < numTest then (acc.1 ++ gs.getD i [], acc.2)
          else (acc.1, acc.2 ++ gs.getD i [])) (test, tv)).2)) := by
  intro perm
  induction perm with
  | nil => intro test tv h1 h2; exact ⟨h1, h2⟩
  | cons i rest ih =>
    intro test tv h1 h2
    rw [List.foldl_cons]
    by_cases hc : test.length < numTest
    · rw [show (if (test, tv).1.length < numTest
            then ((test, tv).1 ++ gs.getD i [], (test, tv).2)
            else ((test, tv).1, (test, tv).2 ++ gs.getD i []))
            = (test ++ gs.getD i [], tv) from by simp [hc]]
      refine ih (test ++ gs.getD i []) tv ?_ h2
      rw [List.mem_append, List.mem_append, h1, hP i]
    · rw [show (if (test, tv).1.length < numTest
            then ((test, tv).1 ++ gs.getD i [], (test, tv).2)
            else ((test, tv).1, (test, tv).2 ++ gs.getD i []))
            = (test, tv ++ gs.getD i []) from by simp [hc]]
      refine ih test (tv ++ gs.getD i []) h1 ?_
      rw [List.mem_append, List.mem_append, h2, hP i]

theorem assignGroups_fold_mono (gs : List (List Nat)) (numTest : Nat) :
    ∀ (perm : List Nat) (test tv : List Nat) (x : Nat),
      (x ∈ test → x ∈ (perm.foldl (fun acc i =>
          if acc.1.length < numTest then (acc.1 ++ gs.getD i [], acc.2)
          else (acc.1, acc.2 ++ gs.getD i [])) (test, tv)).1)
      ∧ (x ∈ tv → x ∈ (perm.foldl (fun acc i =>
          if acc.1.length < numTest then (acc.1 ++ gs.getD i [], acc.2)
          else (acc.1, acc.2 ++ gs.getD i [])) (test, tv)).2) := by
  intro perm
  induction perm with
  | nil => intro test tv x; exact ⟨fun h => h, fun h => h⟩
  | cons i rest ih =>
    intro test tv x
    rw [List.foldl_cons]
    by_cases hc : test.length < numTest
    · rw [show (if (test, tv).1.length < numTest
            then ((test, tv).1 ++ gs.getD i [], (test, tv).2)
            else ((test, tv).1, (test, tv).2 ++ gs.getD i []))
            = (test ++ gs.getD i [], tv) from by simp [hc]]
      exact ⟨fun h => (ih _ _ x).1 (List.mem_append.mpr (Or.inl h)),
             fun h => (ih _ _ x).2 h⟩
    · rw [show (if (test, tv).1.length < numTest
            then ((test, tv).1 ++ gs.getD i [], (test, tv).2)
            else ((test, tv).1, (test, tv).2 ++ gs.getD i []))
            = (test, tv ++ gs.getD i []) from by simp [hc]]
      exact ⟨fun h => (ih _ _ x).1 h,
             fun h => (ih _ _ x).2 (List.mem_append.mpr (Or.inl h))⟩

theorem assignGroups_fold_cover (gs : List (List Nat)) (numTest : Nat) :
    ∀ (perm : List Nat) (test tv : List Nat) (a x : Nat),
      a ∈ perm → x ∈ gs.getD a [] →
      x ∈ (perm.foldl (fun acc i =>
          if acc.1.length < numTest then (acc.1 ++ gs.getD i [], acc.2)
          else (acc.1, acc.2 ++ gs.getD i [])) (test, tv)).1
      ∨ x ∈ (perm.foldl (fun acc i =>
          if acc.1.length < numTest then (acc.1 ++ gs.getD i [], acc.2)
          else (acc.1, acc.2 ++ gs.getD i [])) (test, tv)).2 := by
  intro perm
  induction perm with
  | nil => intro test tv a x ha; cases ha
  | cons i rest ih =>
    intro test tv a x ha hx
    rw [List.foldl_cons]
    by_cases hc : test.length < numTest
    · rw [show (if (test, tv).1.length < numTest
            then ((test, tv).1 ++ gs.getD i [], (test, tv).2)
            else ((test, tv).1, (test, tv).2 ++ gs.getD i []))
            = (test ++ gs.getD i [], tv) from by simp [hc]]
      rcases List.mem_cons.mp ha with h | h
      · subst h
        exact Or.inl ((assignGroups_fold_mono gs numTest rest _ _ x).1
          (List.mem_append.mpr (Or.inr hx)))
      · exact ih _ _ a x h hx
    · rw [show (if (test, tv).1.length < numTest
            then ((test, tv).1 ++ gs.getD i [], (test, tv).2)
            else ((test, tv).1, (test, tv).2 ++ gs.getD i []))
            = (test, tv ++ gs.getD i []) from by simp [hc]]
      rcases List.mem_cons.mp ha with h | h
      · subst h
        exact Or.inr ((assignGroups_fold_mono gs numTest rest _ _ x).2
          (List.mem_append.mpr (Or.inr hx)))
      · exact ih _ _ a x h hx

/-- C10 counterexample: with labels `["m0","m0","m1","m2"]`,
`num_test = 1`, `num_train = 2`, group permutation `[1, 2, 0]` and pool
permutation `[0, 3, 1]` (a permutation of the drained pool `[3, 0, 1]`),
samples 0 and 1 share the provenance id "m0" yet sample 0 lands in the
train partition and sample 1 in the validation partition: the id's
samples are split across two of the three output partitions. -/
theorem C10_counterexample :
    (["m0", "m0", "m1", "m2"].get? 0 = ["m0", "m0", "m1", "m2"].get? 1)
    ∧ List.Perm [1, 2, 0] (List.range (groupsOf ["m0", "m0", "m1", "m2"]).length)
    ∧ List.Perm [0, 3, 1]
        (assignGroups (groupsOf ["m0", "m0", "m1", "m2"]) 1 [1, 2, 0]).2
    ∧ (groupedSplit ["m0", "m0", "m1", "m2"] 1 2 [1, 2, 0] [0, 3, 1]).1
      = [0, 3]
    ∧ (groupedSplit ["m0", "m0", "m1", "m2"] 1 2 [1, 2, 0] [0, 3, 1]).2.1
      = [1]
    ∧ (0 ∈ (groupedSplit ["m0", "m0", "m1", "m2"] 1 2 [1, 2, 0] [0, 3, 1]).1)
    ∧ (1 ∈ (groupedSplit ["m0", "m0", "m1", "m2"] 1 2 [1, 2, 0]
        [0, 3, 1]).2.1)
    ∧ ¬(1 ∈ (groupedSplit ["m0", "m0", "m1", "m2"] 1 2 [1, 2, 0]
        [0, 3, 1]).1) := by
  refine ⟨by decide, by decide, by decide, by decide, by decide, by decide,
          by decide, by decide⟩

/-- C10 (amended): samples sharing a provenance id are never split
between the test partition and the train/validation pool — for any group
permutation and any pool permutation, two samples with equal ids are
either both in the test partition or both outside it — and every sample
lands in one of the three partitions; within the train/validation pool,
however, the split into train and validation is at the individual-sample
level. -/
theorem C10_grouped_split (labels : List String) (numTest numTrain : Nat)
    (perm permTV : List Nat) (x y : Nat)
    (hperm : List.Perm perm (List.range (groupsOf labels).length))
    (hptv : List.Perm permTV (assignGroups (groupsOf labels) numTest perm).2)
    (hx : x < labels.length) (hxy : labels.get? x = labels.get? y) :
    ((x ∈ (groupedSplit labels numTest numTrain perm permTV).2.2)
      ↔ (y ∈ (groupedSplit labels numTest numTrain perm permTV).2.2))
    ∧ (x ∈ (groupedSplit labels numTest numTrain perm permTV).1
       ∨ x ∈ (groupedSplit labels numTest numTrain perm permTV).2.1
       ∨ x ∈ (groupedSplit labels numTest numTrain perm permTV).2.2) := by
  have hP : ∀ a, x ∈ (groupsOf labels).getD a []
      ↔ y ∈ (groupsOf labels).getD a [] := by
    intro a
    exact ⟨groupsOf_mem_mono labels x y a hxy,
           groupsOf_mem_mono labels y x a hxy.symm⟩
  have hassign : assignGroups (groupsOf labels) numTest perm
      = perm.foldl (fun acc i =>
          if acc.1.length < numTest
          then (acc.1 ++ (groupsOf labels).getD i [], acc.2)
          else (acc.1, acc.2 ++ (groupsOf labels).getD i [])) ([], []) := rfl
  constructor
  · have h := (assignGroups_fold_iff (groupsOf labels) numTest x y hP perm
      [] [] (by simp) (by simp)).1
    rw [show (groupedSplit labels numTest numTrain perm permTV).2.2
          = (assignGroups (groupsOf labels) numTest perm).1 from rfl]
    rw [hassign]
    exact h
  · obtain ⟨a, ha, hmem⟩ := groupsOf_cover labels x hx
    have haperm : a ∈ perm :=
      hperm.mem_iff.mpr (List.mem_range.mpr ha)
    have hcov := assignGroups_fold_cover (groupsOf labels) numTest perm
      [] [] a x haperm hmem
    rcases hcov with h | h
    · refine Or.inr (Or.inr ?_)
      rw [show (groupedSplit labels numTest numTrain perm permTV).2.2
            = (assignGroups (groupsOf labels) numTest perm).1 from rfl]
      rw [hassign]
      exact h
    · have hpool : x ∈ permTV := by
        refine hptv.mem_iff.mpr ?_
        rw [hassign]
        exact h
      rw [show (groupedSplit labels numTest numTrain perm permTV).1
            = permTV.take numTrain from rfl]
      rw [show (groupedSplit labels numTest numTrain perm permTV).2.1
            = permTV.drop numTrain from rfl]
      rw [← List.take_append_drop numTrain permTV, List.mem_append]
        at hpool
      rcases hpool with h2 | h2
      · exact Or.inl h2
      · exact Or.inr (Or.inl h2)

/-- Witness for the amended C10 at the counterexample's inputs: samples
0 and 1 (same id) are both outside the test partition, and sample 0
lands in a partition. -/
theorem C10_grouped_split_witness :
    List.Perm [1, 2, 0] (List.range (groupsOf ["m0", "m0", "m1", "m2"]).length)
    ∧ List.Perm [0, 3, 1]
        (assignGroups (groupsOf ["m0", "m0", "m1", "m2"]) 1 [1, 2, 0]).2
    ∧ 0 < (["m0", "m0", "m1", "m2"] : List String).length
    ∧ (["m0", "m0", "m1", "m2"].get? 0 = ["m0", "m0", "m1", "m2"].get? 1)
    ∧ (((0 ∈ (groupedSplit ["m0", "m0", "m1", "m2"] 1 2 [1, 2, 0]
          [0, 3, 1]).2.2)
        ↔ (1 ∈ (groupedSplit ["m0", "m0", "m1", "m2"] 1 2 [1, 2, 0]
          [0, 3, 1]).2.2))
      ∧ (0 ∈ (groupedSplit ["m0", "m0", "m1", "m2"] 1 2 [1, 2, 0]
            [0, 3, 1]).1
         ∨ 0 ∈ (groupedSplit ["m0", "m0", "m1", "m2"] 1 2 [1, 2, 0]
            [0, 3, 1]).2.1
         ∨ 0 ∈ (groupedSplit ["m0", "m0", "m1", "m2"] 1 2 [1, 2, 0]
            [0, 3, 1]).2.2)) :=
  ⟨by decide, by decide, by decide, by decide,
   C10_grouped_split ["m0", "m0", "m1", "m2"] 1 2 [1, 2, 0] [0, 3, 1] 0 1
     (by decide) (by decide) (by decide) (by decide)⟩
